import Mathlib

/-!
Verification of the canonicalization layer (formula pool) of the carl library.

Two generations of the pool appear in the repository:

* `AstPool` (`src/unnamed/part_001`, file `AstPool.tpp`): the interning table
  `mAsts` holds *both* polarities of every formula; `addAstToPool` publishes a
  node together with its negation under adjacent ids, and `createAst`
  canonicalizes n-ary AND/OR/XOR/IFF applications before interning.
* `FormulaPool` (`src/src/carl/formula/FormulaPool.h`): the table `mPool` holds
  only the *base* polarity of each pair; `reg`/`free` maintain a usage count on
  the base representative and `getTseitinVar`/`createTseitinVar` maintain the
  bidirectional Tseitin maps.

Formulas are represented by their pool-assigned ids (`Nat`); node payloads are
shallow-embedded contents referring to sub-formulas by id.  A `std::set` /
`PointerSet` of formulas (ordered by id) is represented by a strictly sorted
duplicate-free `List Nat`.
-/

namespace CarlSpec

/-! Section: Sorted duplicate-free lists: the model of an id-ordered pointer set -/

/-- Insert into a strictly sorted duplicate-free list, keeping it sorted and
duplicate-free (the behaviour of `std::set::insert` under the id order). -/
def insertS (a : Nat) : List Nat → List Nat
  | [] => [a]
  | b :: l => if a < b then a :: b :: l else if a = b then b :: l else b :: insertS a l

/-- Build the sorted duplicate-free list holding the elements of `l`: the
`std::set` obtained by inserting the elements of `l` in any order. -/
def sortDedup (l : List Nat) : List Nat := l.foldr insertS []

/-- Insert every element of `xs` (the mass-insert `set.insert(first, last)`). -/
def insertAll (xs : List Nat) (l : List Nat) : List Nat :=
  xs.foldl (fun acc a => insertS a acc) l

theorem insertS_self_cons (a : Nat) (l : List Nat) : insertS a (a :: l) = a :: l := by
  simp [insertS]

theorem mem_insertS {x a : Nat} : ∀ {l : List Nat}, x ∈ insertS a l ↔ x = a ∨ x ∈ l := by
  intro l
  induction l with
  | nil => simp [insertS]
  | cons b l ih =>
    by_cases h1 : a < b
    · simp [insertS, h1]
    · by_cases h2 : a = b
      · subst h2
        rw [insertS_self_cons]
        simp only [List.mem_cons]
        tauto
      · simp only [insertS, h1, h2, if_false, List.mem_cons, ih]
        tauto

theorem insertS_sorted {a : Nat} : ∀ {l : List Nat},
    List.Pairwise (· < ·) l → List.Pairwise (· < ·) (insertS a l) := by
  intro l
  induction l with
  | nil => intro _; simp [insertS]
  | cons b l ih =>
    intro hp
    rcases List.pairwise_cons.mp hp with ⟨hb, hl⟩
    by_cases h1 : a < b
    · simp only [insertS, h1, if_pos]
      refine List.pairwise_cons.mpr ⟨?_, hp⟩
      intro x hx
      rcases List.mem_cons.mp hx with rfl | hx
      · exact h1
      · exact h1.trans (hb x hx)
    · by_cases h2 : a = b
      · subst h2; rw [insertS_self_cons]; exact hp
      · have hba : b < a := by omega
        simp only [insertS, h1, h2, if_false]
        refine List.pairwise_cons.mpr ⟨?_, ih hl⟩
        intro x hx
        rcases mem_insertS.mp hx with rfl | hx
        · exact hba
        · exact hb x hx

theorem insertS_idem (a : Nat) : ∀ (l : List Nat), insertS a (insertS a l) = insertS a l := by
  intro l
  induction l with
  | nil => simp [insertS]
  | cons b l ih =>
    by_cases h1 : a < b
    · simp [insertS, h1, lt_irrefl]
    · by_cases h2 : a = b
      · subst h2; simp [insertS, h1]
      · simp [insertS, h1, h2, ih]

theorem insertS_comm (a b : Nat) : ∀ (l : List Nat),
    insertS a (insertS b l) = insertS b (insertS a l) := by
  intro l
  rcases Nat.lt_trichotomy a b with hab | rfl | hba
  · induction l with
    | nil =>
      simp [insertS, hab, Nat.lt_asymm hab, Nat.ne_of_gt hab]
    | cons c l ih =>
      by_cases hbc : b < c
      · have hac : a < c := hab.trans hbc
        simp [insertS, hbc, hac, hab, Nat.lt_asymm hab, Nat.ne_of_gt hab]
      · by_cases hbec : b = c
        · subst hbec
          simp [insertS, hbc, hab, Nat.lt_asymm hab, Nat.ne_of_gt hab]
        · by_cases hac : a < c
          · have : ¬ a = c := by omega
            simp [insertS, hbc, hbec, hac, this, Nat.lt_asymm hab, Nat.ne_of_gt hab]
          · by_cases haec : a = c
            · subst haec
              simp [insertS, hbc, hbec, lt_irrefl]
            · simp [insertS, hbc, hbec, hac, haec, ih]
  · exact (insertS_idem a l).trans (insertS_idem a l).symm
  · induction l with
    | nil =>
      simp [insertS, hba, Nat.lt_asymm hba, Nat.ne_of_gt hba]
    | cons c l ih =>
      by_cases hac : a < c
      · have hbc : b < c := hba.trans hac
        simp [insertS, hbc, hac, hba, Nat.lt_asymm hba, Nat.ne_of_gt hba]
      · by_cases haec : a = c
        · subst haec
          simp [insertS, hac, hba, Nat.lt_asymm hba, Nat.ne_of_gt hba]
        · by_cases hbc : b < c
          · have : ¬ b = c := by omega
            simp [insertS, hac, haec, hbc, this, Nat.lt_asymm hba, Nat.ne_of_gt hba]
          · by_cases hbec : b = c
            · subst hbec
              simp [insertS, hac, haec, lt_irrefl]
            · simp [insertS, hac, haec, hbc, hbec, ih]

theorem sortDedup_perm {l₁ l₂ : List Nat} (h : l₁.Perm l₂) : sortDedup l₁ = sortDedup l₂ := by
  induction h with
  | nil => rfl
  | cons x _ ih => simp only [sortDedup, List.foldr_cons] at *; rw [ih]
  | swap x y l => simp only [sortDedup, List.foldr_cons]; exact insertS_comm y x _
  | trans _ _ ih₁ ih₂ => exact ih₁.trans ih₂

theorem sortDedup_sorted (l : List Nat) : List.Pairwise (· < ·) (sortDedup l) := by
  induction l with
  | nil => exact List.Pairwise.nil
  | cons a l ih => exact insertS_sorted ih

theorem mem_sortDedup {x : Nat} : ∀ {l : List Nat}, x ∈ sortDedup l ↔ x ∈ l := by
  intro l
  induction l with
  | nil => simp [sortDedup]
  | cons a l ih =>
    simp only [sortDedup, List.foldr_cons] at *
    rw [mem_insertS, ih, List.mem_cons]

/-! Section: AstPool (src/unnamed/part_001, AstPool.tpp) -/

/-- The n-ary connective tags accepted by `AstPool::createAst`
(`assert(_type == AND || _type == OR || _type == XOR || _type == IFF)`). -/
inductive AType where
  | and | or | xor | iff
deriving DecidableEq

/-- Shape of one `Ast` node, with sub-asts referred to by pool id.  The class
`Ast` itself is not in `src/`; its payload shapes follow the spec's data model
(§3): TRUE/FALSE singletons, a Boolean variable atom, a unary NOT and an
id-sorted n-ary application. -/
inductive AContent where
  | atrue
  | afalse
  | abool (v : Nat)
  | anot (sub : Nat)
  | anary (t : AType) (subs : List Nat)
deriving DecidableEq

/-- One pooled node: its id together with its structural content. -/
structure ANode where
  id : Nat
  content : AContent
deriving DecidableEq

/-- The `AstPool` state: `mAsts` (all published nodes, both polarities) and the
id allocator `mIdAllocator`.  The constructor creates TRUE with id 1 and FALSE
with id 2 and starts the allocator at 3. -/
structure APool where
  nodes : List ANode
  nextId : Nat
deriving DecidableEq

/-- The pool right after `AstPool::AstPool`: TRUE (id 1), FALSE (id 2),
allocator at 3. -/
def APool.init : APool := ⟨[⟨1, .atrue⟩, ⟨2, .afalse⟩], 3⟩

/-- Content of the node with a given id, if present. -/
def APool.lookupA (p : APool) (i : Nat) : Option AContent :=
  (p.nodes.find? (fun n => decide (n.id = i))).map (·.content)

/-- Structural lookup in `mAsts`: the id of a published node with the given
content, if any (the hash+equality lookup performed by `mAsts.insert`). -/
def APool.findContent (p : APool) (c : AContent) : Option Nat :=
  (p.nodes.find? (fun n => decide (n.content = c))).map (·.id)

/-- `AstPool::addAstToPool`: intern a candidate shape.  If the shape is already
present the candidate is discarded and the existing node returned; otherwise
the candidate receives the next id `k`, and its negation (a NOT wrapper, per
the source comment "we construct the negation of an ast right after the ast
itself and assign the next id to it") is published with id `k+1`. -/
def APool.addAstToPool (p : APool) (c : AContent) : APool × Nat :=
  match p.findContent c with
  | some i => (p, i)
  | none =>
    (⟨p.nodes ++ [⟨p.nextId, c⟩, ⟨p.nextId + 1, .anot p.nextId⟩], p.nextId + 2⟩, p.nextId)

/-- The flattening test of `createAst`:
`(*iter)->getType() == _type && (_type == AND || _type == OR)`. -/
def APool.flattenHit (p : APool) (t : AType) (i : Nat) : Bool :=
  (match p.lookupA i with
   | some (.anary t' _) => t' = t
   | _ => false)
  && (t = AType.and || t = AType.or)

/-- The sub-asts of an n-ary node (used when flattening). -/
def APool.subsA (p : APool) (i : Nat) : List Nat :=
  match p.lookupA i with
  | some (.anary _ s) => s
  | _ => []

/-- The complement test of `createAst` on two adjacent set elements:
`(*iterB == mpTrue && *iter == mpFalse) ||
 ((*iter)->getType() == NOT && (*iter)->subast() == **iterB)`
(`mpTrue`/`mpFalse` have ids 1 and 2). -/
def APool.negHit (p : APool) (x y : Nat) : Bool :=
  (x = 1 && y = 2)
  || (match p.lookupA y with
      | some (.anot s) => s = x
      | _ => false)

/-- The canonicalization loop of `AstPool::createAst`.  `processed` holds the
set elements strictly before the iterator, `rest` the iterator position onward
(both sorted).  Flattening erases the current element and merges its sub-asts
into the processed region, which is where `std::set::insert` places them: as
the source comment explains, sub-asts were created before their parent, so
their ids are smaller than the current element's.  A complement hit
short-circuits AND to FALSE (id 2), OR to TRUE (id 1), IFF to FALSE, and for
XOR erases the pair and splices in TRUE. -/
def APool.createLoop (p : APool) (t : AType) : List Nat → List Nat → Sum Nat (List Nat)
  | processed, [] => .inr processed
  | processed, x :: rest =>
    if p.flattenHit t x then
      p.createLoop t (insertAll (p.subsA x) processed) rest
    else
      match rest with
      | [] => .inr (processed ++ [x])
      | y :: rest' =>
        if p.negHit x y then
          match t with
          | .and => .inl 2
          | .or => .inl 1
          | .iff => .inl 2
          | .xor => p.createLoop t (insertS 1 processed) rest'
        else
          p.createLoop t (processed ++ [x]) (y :: rest')

/-- The `SIMPLIFY_AST` block of `createAst`: for AND/OR/IFF, locate a leading
TRUE (`*iterToTrue == mpTrue`, i.e. head = 1) and a FALSE right at or after it
(head = 2, or second = 2 when head = 1); AND erases TRUE then returns FALSE if
FALSE remains or TRUE if now empty; OR erases FALSE then returns TRUE if TRUE
remains or FALSE if now empty; IFF returns FALSE when both are present. -/
def APool.simplifyTF (t : AType) (s : List Nat) : Sum Nat (List Nat) :=
  if t = AType.and || t = AType.or || t = AType.iff then
    let hasT : Bool := s.head? = some 1
    let hasF : Bool := if hasT then s[1]? = some 2 else s.head? = some 2
    match t with
    | .and =>
      let s' := if hasT then s.erase 1 else s
      if hasF then .inl 2
      else if s' = [] then .inl 1
      else .inr s'
    | .or =>
      let s' := if hasF then s.erase 2 else s
      if hasT then .inl 1
      else if s' = [] then .inl 2
      else .inr s'
    | .iff => if hasT && hasF then .inl 2 else .inr s
    | .xor => .inr s
  else .inr s

/-- `AstPool::createAst` on the `PointerSet` built from the operand list `l`:
run the canonicalization loop over the sorted operand set; an empty set yields
FALSE; then the `SIMPLIFY_AST` block runs; a singleton survivor is returned
unwrapped (`newAstWithOneSubast`, whose body is not in `src/`; modelled from
the spec: "singleton result after simplification returns that single operand
unwrapped"); otherwise the node is interned via `addAstToPool`. -/
def APool.createAst (p : APool) (t : AType) (l : List Nat) : APool × Nat :=
  match p.createLoop t [] (sortDedup l) with
  | .inl r => (p, r)
  | .inr s =>
    if s.isEmpty then (p, 2)
    else
      match APool.simplifyTF t s with
      | .inl r => (p, r)
      | .inr s' =>
        match s' with
        | [a] => (p, a)
        | _ => p.addAstToPool (.anary t s')

/-- C1: structural sharing (hash-consing).  Interning the same canonical shape
twice returns the very same node and leaves the pool unchanged (the second
candidate is discarded); and `createAst` only depends on the operand *set*:
operand lists that are permutations of one another (e.g. `AND(a,b,c)` vs
`AND(c,b,a)`) produce identical results. -/
theorem claim1_hash_consing :
    (∀ (p : APool) (c : AContent),
      APool.addAstToPool (APool.addAstToPool p c).1 c = APool.addAstToPool p c)
    ∧ (∀ (p : APool) (t : AType) (l₁ l₂ : List Nat), l₁.Perm l₂ →
      p.createAst t l₁ = p.createAst t l₂) := by
  constructor
  · intro p c
    match h : p.findContent c with
    | some i =>
      simp [APool.addAstToPool, h]
    | none =>
      have h1 : p.nodes.find? (fun n => decide (n.content = c)) = none := by
        rcases hfind : p.nodes.find? (fun n => decide (n.content = c)) with _ | n
        · exact hfind
        · exfalso; simp [APool.findContent, hfind] at h
      simp only [APool.addAstToPool, h]
      have hfind : (p.nodes ++
          [⟨p.nextId, c⟩, ⟨p.nextId + 1, .anot p.nextId⟩] :
          List ANode).find? (fun n => decide (n.content = c)) = some ⟨p.nextId, c⟩ := by
        rw [List.find?_append, h1]
        simp [List.find?]
      simp [APool.addAstToPool, APool.findContent, hfind]
  · intro p t l₁ l₂ hperm
    unfold APool.createAst
    rw [sortDedup_perm hperm]

/-- C2: id adjacency of negation pairs.  When `addAstToPool` publishes a new
base formula (the shape was not yet in the pool) it takes the current allocator
value `k` as its id, its negation is published with id `k+1`, and the allocator
moves to `k+2`; moreover the allocator never decreases. -/
theorem claim2_id_adjacency :
    ∀ (p : APool) (c : AContent), p.findContent c = none →
      (∀ n ∈ p.nodes, n.id < p.nextId) →
      (p.addAstToPool c).2 = p.nextId
      ∧ ((p.addAstToPool c).1.lookupA (p.nextId + 1) = some (.anot p.nextId))
      ∧ (p.addAstToPool c).1.nextId = p.nextId + 2
      ∧ ∀ (q : APool) (d : AContent), q.nextId ≤ (q.addAstToPool d).1.nextId := by
  intro p c h hbound
  have hboundfree : ∀ (q : APool) (d : AContent), q.nextId ≤ (q.addAstToPool d).1.nextId := by
    intro q d
    match hq : q.findContent d with
    | some i => simp [APool.addAstToPool, hq]
    | none => simp [APool.addAstToPool, hq]
  refine ⟨by simp [APool.addAstToPool, h], ?_, by simp [APool.addAstToPool, h], hboundfree⟩
  simp only [APool.addAstToPool, h]
  unfold APool.lookupA
  rw [List.find?_append]
  have hfind : p.nodes.find? (fun n => decide (n.id = p.nextId + 1)) = none := by
    refine List.find?_eq_none.mpr (fun n hn => ?_)
    have := hbound n hn
    simp
    omega
  rw [hfind]
  simp [List.find?]

theorem createLoop_absorb (p : APool) (t : AType) (k : Nat)
    (ht : t = AType.and ∨ t = AType.or)
    (hpair : p.negHit k (k + 1) = true)
    (hfk : p.flattenHit t k = false)
    (hfk1 : p.flattenHit t (k + 1) = false) :
    ∀ (rest : List Nat), List.Pairwise (· < ·) rest →
      k ∈ rest → (k + 1) ∈ rest → ∀ (processed : List Nat),
      p.createLoop t processed rest = .inl (if t = AType.and then 2 else 1) := by
  intro rest
  induction rest with
  | nil => intro _ hk; exact absurd hk (List.not_mem_nil k)
  | cons x rs ih =>
    intro hsort hk hk1 processed
    rcases List.pairwise_cons.mp hsort with ⟨hx, hrs⟩
    by_cases hf : p.flattenHit t x = true
    · have hxk : x ≠ k := by
        rintro rfl; rw [hf] at hfk; exact Bool.noConfusion hfk
      have hxk1 : x ≠ k + 1 := by
        rintro rfl; rw [hf] at hfk1; exact Bool.noConfusion hfk1
      have hk' : k ∈ rs := by
        rcases List.mem_cons.mp hk with rfl | hk'
        · exact absurd rfl hxk
        · exact hk'
      have hk1' : k + 1 ∈ rs := by
        rcases List.mem_cons.mp hk1 with rfl | hk1'
        · exact absurd rfl hxk1
        · exact hk1'
      rw [APool.createLoop.eq_def]
      simp only [hf, if_true]
      exact ih hrs hk' hk1' _
    · rw [Bool.not_eq_true] at hf
      cases rs with
      | nil =>
        exfalso
        rcases List.mem_cons.mp hk with rfl | hk' <;>
          rcases List.mem_cons.mp hk1 with h1 | hk1'
        · omega
        · simp at hk1'
        · simp at hk'
        · simp at hk'
      | cons y rs' =>
        by_cases hn : p.negHit x y = true
        · rcases ht with rfl | rfl
          · rw [APool.createLoop.eq_def]; simp [hf, hn]
          · rw [APool.createLoop.eq_def]; simp [hf, hn]
        · rw [Bool.not_eq_true] at hn
          have hxk1 : x ≠ k + 1 := by
            intro hEq
            have hkm : k ∈ y :: rs' := by
              rcases List.mem_cons.mp hk with h | h
              · omega
              · exact h
            have := hx k hkm
            omega
          have hxk : x ≠ k := by
            intro hEq
            have hkm : k + 1 ∈ y :: rs' := by
              rcases List.mem_cons.mp hk1 with h | h
              · omega
              · exact h
            have hky : x < y := hx y (List.mem_cons_self y rs')
            rcases List.mem_cons.mp hkm with h | h
            · rw [hEq, ← h] at hn
              rw [hn] at hpair
              exact Bool.noConfusion hpair
            · have := (List.pairwise_cons.mp hrs).1 (k + 1) h
              omega
          have hk' : k ∈ y :: rs' := by
            rcases List.mem_cons.mp hk with rfl | h
            · exact absurd rfl hxk
            · exact h
          have hk1' : k + 1 ∈ y :: rs' := by
            rcases List.mem_cons.mp hk1 with rfl | h
            · exact absurd rfl hxk1
            · exact h
          rw [APool.createLoop.eq_def]
          simp only [hf, Bool.false_eq_true, if_false, hn]
          exact ih hrs hk' hk1' _

/-- C5 (amended): AND/OR absorption via id-sorted complement adjacency.  If the
operand set contains a pooled complement pair — ids `k` and `k+1` where the
node `k+1` is the NOT of node `k` (or `k, k+1` are the TRUE/FALSE singletons) —
and *neither element of the pair is itself an AND/OR node of the connective
being constructed* (otherwise the flattening step erases it before the
adjacency scan can see the pair, see the counterexample), then `createAst`
short-circuits: AND yields FALSE (id 2) and OR yields TRUE (id 1), without
touching the pool. -/
theorem claim5_absorption_amended (p : APool) (k : Nat) (l : List Nat)
    (hpair : p.negHit k (k + 1) = true)
    (hk : k ∈ l) (hk1 : k + 1 ∈ l) :
    (p.flattenHit .and k = false → p.flattenHit .and (k + 1) = false →
      p.createAst .and l = (p, 2))
    ∧ (p.flattenHit .or k = false → p.flattenHit .or (k + 1) = false →
      p.createAst .or l = (p, 1)) := by
  constructor
  · intro hfk hfk1
    have h := createLoop_absorb p .and k (Or.inl rfl) hpair hfk hfk1
      (sortDedup l) (sortDedup_sorted l) (mem_sortDedup.mpr hk) (mem_sortDedup.mpr hk1) []
    simp only [APool.createAst, h]
    simp
  · intro hfk hfk1
    have h := createLoop_absorb p .or k (Or.inr rfl) hpair hfk hfk1
      (sortDedup l) (sortDedup_sorted l) (mem_sortDedup.mpr hk) (mem_sortDedup.mpr hk1) []
    simp only [APool.createAst, h]
    simp

/-- A concrete pool: Boolean atoms `p₀` (id 3) and `q₀` (id 5), the conjunction
`a = AND(p₀,q₀)` (id 7) and its negation `NOT a` (id 8) — exactly the state
reached from `APool.init` by interning the two atoms and then `a`. -/
def cex5pool : APool :=
  ⟨[⟨1, .atrue⟩, ⟨2, .afalse⟩, ⟨3, .abool 0⟩, ⟨4, .anot 3⟩, ⟨5, .abool 1⟩, ⟨6, .anot 5⟩,
    ⟨7, .anary .and [3, 5]⟩, ⟨8, .anot 7⟩], 9⟩

/-- C5 counterexample: the claim's "for any formulas a and b" fails when `a` is
itself an AND node.  In `cex5pool`, node 8 is the negation of the AND node 7,
yet `createAst AND {7, 8}` does not return FALSE: the loop first flattens
operand 7 into its sub-asts {3, 5}, destroying the id-adjacent pair, and the
result is a freshly interned node (id 9) for `AND{3, 5, 8}`. -/
theorem claim5_counterexample :
    cex5pool.lookupA 8 = some (.anot 7)
    ∧ cex5pool.negHit 7 8 = true
    ∧ (cex5pool.createAst .and [7, 8]).2 = 9
    ∧ (cex5pool.createAst .and [7, 8]).2 ≠ 2 := by decide

theorem cex5pool_reached :
    ((((APool.init.addAstToPool (.abool 0)).1.addAstToPool (.abool 1)).1.createAst
      .and [3, 5])).1 = cex5pool := by decide

/-- C5 witness: the amended theorem applied at `cex5pool` with the atomic pair
`(3, 4)`: `AND{3, 4}` folds to FALSE and `OR{3, 4}` folds to TRUE. -/
theorem claim5_witness :
    cex5pool.negHit 3 4 = true
    ∧ cex5pool.createAst .and [3, 4] = (cex5pool, 2)
    ∧ cex5pool.createAst .or [4, 3] = (cex5pool, 1) := by
  refine ⟨by decide, ?_, ?_⟩
  · exact (claim5_absorption_amended cex5pool 3 [3, 4] (by decide) (by decide)
      (by decide)).1 (by decide) (by decide)
  · exact (claim5_absorption_amended cex5pool 3 [4, 3] (by decide) (by decide)
      (by decide)).2 (by decide) (by decide)

/-- C6: empty-operand asymmetry of `createAst`.  An explicitly empty operand
set yields FALSE for both AND and OR (`if _subasts.empty() return mpFalse`),
whereas an AND whose operand set empties after eliminating TRUE returns TRUE
and an OR whose operand set empties after eliminating FALSE returns FALSE
(the `SIMPLIFY_AST` block). -/
theorem claim6_empty_asymmetry (p : APool)
    (h1 : p.lookupA 1 = some .atrue) (h2 : p.lookupA 2 = some .afalse) :
    p.createAst .and [] = (p, 2)
    ∧ p.createAst .or [] = (p, 2)
    ∧ p.createAst .and [1] = (p, 1)
    ∧ p.createAst .or [2] = (p, 2) := by
  have hnil : ∀ t, p.createLoop t [] (sortDedup []) = .inr [] := by
    intro t
    rw [show sortDedup [] = [] from rfl, APool.createLoop.eq_def]
  have h1' : p.flattenHit .and 1 = false := by simp [APool.flattenHit, h1]
  have h2' : p.flattenHit .or 2 = false := by simp [APool.flattenHit, h2]
  have hone : p.createLoop .and [] (sortDedup [1]) = .inr [1] := by
    rw [show sortDedup [1] = [1] from rfl, APool.createLoop.eq_def]
    simp [h1']
  have htwo : p.createLoop .or [] (sortDedup [2]) = .inr [2] := by
    rw [show sortDedup [2] = [2] from rfl, APool.createLoop.eq_def]
    simp [h2']
  refine ⟨?_, ?_, ?_, ?_⟩
  · simp [APool.createAst, hnil]
  · simp [APool.createAst, hnil]
  · simp [APool.createAst, hone, APool.simplifyTF, List.erase]
  · simp [APool.createAst, htwo, APool.simplifyTF, List.erase]

/-- C6 witness: the asymmetry at the freshly initialized pool. -/
theorem claim6_witness :
    APool.init.lookupA 1 = some .atrue
    ∧ APool.init.createAst .and [] = (APool.init, 2)
    ∧ APool.init.createAst .and [1] = (APool.init, 1)
    ∧ APool.init.createAst .or [2] = (APool.init, 2) := by
  have h := claim6_empty_asymmetry APool.init (by decide) (by decide)
  exact ⟨by decide, h.1, h.2.2.1, h.2.2.2⟩

/-- C1 witness: interning the same Boolean-variable shape twice returns the
original node unchanged, and `AND{3,4,5}` equals `AND{5,4,3}`. -/
theorem claim1_witness :
    APool.addAstToPool (APool.addAstToPool APool.init (.abool 0)).1 (.abool 0)
      = APool.addAstToPool APool.init (.abool 0)
    ∧ ([3, 4, 5] : List Nat).Perm [5, 4, 3]
    ∧ APool.init.createAst .and [3, 4, 5] = APool.init.createAst .and [5, 4, 3] := by
  refine ⟨claim1_hash_consing.1 APool.init (.abool 0), by decide, ?_⟩
  exact claim1_hash_consing.2 APool.init .and [3, 4, 5] [5, 4, 3] (by decide)

/-- C2 witness: publishing the atom `abool 0` in the fresh pool assigns it id 3
and its negation id 4, and moves the allocator to 5. -/
theorem claim2_witness :
    APool.init.findContent (.abool 0) = none
    ∧ (∀ n ∈ APool.init.nodes, n.id < APool.init.nextId)
    ∧ (APool.init.addAstToPool (.abool 0)).2 = 3
    ∧ (APool.init.addAstToPool (.abool 0)).1.lookupA 4 = some (.anot 3) := by
  have h := claim2_id_adjacency APool.init (.abool 0) (by decide) (by decide)
  exact ⟨by decide, by decide, h.1, h.2.1⟩

/-! Section: FormulaPool (src/src/carl/formula/FormulaPool.h)

The arithmetic `Constraint` atom type is not under `src/`; it is modelled from
the spec (§1, §6): an opaque value wrapping a polynomial-like payload and a
relation symbol, supporting equality, a strict total order, negation of the
relation, and a constant/zero consistency test.  The payload is a stand-in
`Int` plus a flag telling whether it is a constant polynomial. -/

/-- Relation symbol of an arithmetic constraint.  Modelled from the spec:
negation maps a relation to its complementary relation (an involution with no
fixed point). -/
inductive Rel where
  | req | rneq | rless | rleq | rgeq | rgreater
deriving DecidableEq

/-- The complementary relation. -/
def Rel.negation : Rel → Rel
  | .req => .rneq
  | .rneq => .req
  | .rless => .rgeq
  | .rgeq => .rless
  | .rleq => .rgreater
  | .rgreater => .rleq

/-- Position of a relation in the model's total order on relations. -/
def Rel.pos : Rel → Nat
  | .req => 0
  | .rneq => 1
  | .rless => 2
  | .rleq => 3
  | .rgeq => 4
  | .rgreater => 5

/-- Modelled from the spec: an arithmetic constraint `poly rel 0`.  `isConst`
tells whether the left-hand side is a constant polynomial (in which case the
constraint is identically true or false). -/
structure Constraint where
  isConst : Bool
  poly : Int
  rel : Rel
deriving DecidableEq

/-- `Constraint::negation`: same left-hand side, complementary relation. -/
def Constraint.negation (c : Constraint) : Constraint :=
  ⟨c.isConst, c.poly, c.rel.negation⟩

/-- Truth of a constant constraint `k rel 0`. -/
def Constraint.constHolds (c : Constraint) : Bool :=
  match c.rel with
  | .req => c.poly = 0
  | .rneq => c.poly ≠ 0
  | .rless => c.poly < 0
  | .rleq => c.poly ≤ 0
  | .rgeq => 0 ≤ c.poly
  | .rgreater => 0 < c.poly

/-- `Constraint::isConsistent`: 0 = identically false, 1 = identically true,
2 = undetermined (a genuine constraint). -/
def Constraint.isConsistent (c : Constraint) : Nat :=
  if c.isConst then (if c.constHolds then 1 else 0) else 2

/-- The strict total order `operator<` on constraints (modelled from the spec:
any strict total order works; lexicographic on payload then relation). -/
def Constraint.ltb (a b : Constraint) : Bool :=
  if a.poly < b.poly then true
  else if b.poly < a.poly then false
  else if a.isConst = b.isConst then a.rel.pos < b.rel.pos
  else a.isConst = false

theorem Rel.negation_idem (r : Rel) : r.negation.negation = r := by
  cases r <;> rfl

theorem Rel.negation_not_self (r : Rel) : r.negation ≠ r := by
  cases r <;> simp [Rel.negation]

theorem Constraint.negation_involutive (c : Constraint) : c.negation.negation = c := by
  cases c with
  | mk ic p r => simp [Constraint.negation, Rel.negation_idem]

theorem Constraint.negation_ne (c : Constraint) : c.negation ≠ c := by
  cases c with
  | mk ic p r =>
    simp [Constraint.negation]
    intro h
    exact Rel.negation_not_self r h

theorem Rel.pos_inj (r s : Rel) : r.pos = s.pos → r = s := by
  cases r <;> cases s <;> simp [Rel.pos]

theorem Constraint.ltb_total (a b : Constraint) (h : a ≠ b) :
    a.ltb b = true ∨ b.ltb a = true := by
  rcases Int.lt_trichotomy a.poly b.poly with hp | hp | hp
  · left; simp [Constraint.ltb, hp]
  · have hnlt : ¬ a.poly < b.poly := by omega
    have hnlt' : ¬ b.poly < a.poly := by omega
    by_cases hc : a.isConst = b.isConst
    · have hr : a.rel ≠ b.rel := by
        intro hr
        apply h
        cases a with
        | mk ia pa ra =>
          cases b with
          | mk ib pb rb => simp_all
      have hpos : a.rel.pos ≠ b.rel.pos := fun hpos => hr (Rel.pos_inj _ _ hpos)
      rcases Nat.lt_or_ge a.rel.pos b.rel.pos with hlt | hge
      · left; simp [Constraint.ltb, hnlt, hnlt', hc, hlt]
      · right; simp [Constraint.ltb, hnlt, hnlt', hc.symm]
        omega
    · cases hA : a.isConst <;> cases hB : b.isConst
      · exact absurd (hA.trans hB.symm) hc
      · left; simp [Constraint.ltb, hnlt, hnlt', hA, hB]
      · right; simp [Constraint.ltb, hnlt, hnlt', hA, hB]
      · exact absurd (hA.trans hB.symm) hc
  · right; simp [Constraint.ltb, hp]

theorem Constraint.ltb_irrefl (a : Constraint) : a.ltb a = false := by
  simp [Constraint.ltb]

/-- The connective tag of an n-ary `FormulaContent`. -/
inductive FNary where
  | nand | nor | nxor | niff
deriving DecidableEq

/-- Shape of one `FormulaContent` node (class `FormulaContent` itself is not
under `src/`; shapes follow the spec's data model §3), with sub-formulas
referred to by pool id: the TRUE/FALSE singletons, a Boolean variable, a unary
NOT, a constraint atom, and an id-sorted n-ary application. -/
inductive FContent where
  | ftrue
  | ffalse
  | fbool (v : Nat)
  | fnot (sub : Nat)
  | fcstr (c : Constraint)
  | fnary (t : FNary) (subs : List Nat)
deriving DecidableEq

/-- `mType == FormulaType::CONSTRAINT`. -/
def FContent.isConstraintType : FContent → Bool
  | .fcstr _ => true
  | _ => false

/-- One allocated `FormulaContent` object: id, shape, the `mNegation` link (by
id), the `mUsages` counter and the `mDifficulty` score. -/
structure FNode where
  id : Nat
  content : FContent
  negId : Nat
  usages : Nat
  difficulty : Nat
deriving DecidableEq

/-- The `FormulaPool` state: id allocator `mIdAllocator`, every allocated node
(both polarities of every pair), the lookup table `mPool` (ids of the base
formulas plus the TRUE/FALSE singletons), the two Tseitin maps, and a model of
the process-wide fresh-Boolean-variable allocator feeding
`carl::freshBooleanVariable()`. -/
structure FPool where
  idAllocator : Nat
  nodes : List FNode
  pool : List Nat
  tseitinVars : List (Nat × Nat)
  tseitinVarToFormula : List (Nat × Nat)
  nextVar : Nat
deriving DecidableEq

/-- Pool state after construction: TRUE (id 1) and FALSE (id 2), mutually
negated, both table-resident, allocator at 3. -/
def FPool.mk0 : FPool :=
  ⟨3, [⟨1, .ftrue, 2, 1, 0⟩, ⟨2, .ffalse, 1, 1, 0⟩], [1, 2], [], [], 0⟩

/-- Association-list lookup (the `find` of the Tseitin maps). -/
def lookupKV : List (Nat × Nat) → Nat → Option Nat
  | [], _ => none
  | (k, v) :: rest, i => if k = i then some v else lookupKV rest i

/-- Association-list erase (the `erase` of the Tseitin maps). -/
def eraseKV : List (Nat × Nat) → Nat → List (Nat × Nat)
  | [], _ => []
  | (k, v) :: rest, i => if k = i then rest else (k, v) :: eraseKV rest i

/-- The allocated node with the given id, if any. -/
def FPool.findNode (p : FPool) (i : Nat) : Option FNode :=
  p.nodes.find? (fun n => decide (n.id = i))

/-- The `mNegation` link of the node with the given id (0 if absent). -/
def FPool.negIdOf (p : FPool) (i : Nat) : Nat :=
  match p.findNode i with
  | some n => n.negId
  | none => 0

/-- The `mUsages` field of the node with the given id (0 if absent). -/
def FPool.usagesOf (p : FPool) (i : Nat) : Nat :=
  match p.findNode i with
  | some n => n.usages
  | none => 0

/-- The `mDifficulty` field of the node with the given id (0 if absent). -/
def FPool.difficultyOf (p : FPool) (i : Nat) : Nat :=
  match p.findNode i with
  | some n => n.difficulty
  | none => 0

/-- The shape of the node with the given id. -/
def FPool.contentOf (p : FPool) (i : Nat) : Option FContent :=
  (p.findNode i).map (·.content)

/-- Membership in the lookup table `mPool`. -/
def FPool.inPool (p : FPool) (i : Nat) : Bool := i ∈ p.pool

/-- Structural lookup in `mPool` (hash+equality over type, sub-formula ids and
payload): only table-resident (base) nodes are found. -/
def FPool.lookupContent (p : FPool) (c : FContent) : Option FNode :=
  p.nodes.find? (fun n => p.inPool n.id && decide (n.content = c))

/-- `FormulaPool::createNegatedContent`: the shape of the negation constructed
together with a freshly published node whose id is `baseId` — the negated
constraint for a constraint node, otherwise a NOT wrapper around the node. -/
def negContentOf (c : FContent) (baseId : Nat) : FContent :=
  match c with
  | .fcstr cc => .fcstr cc.negation
  | _ => .fnot baseId

/-- Modelled from the spec (§4.1 `internBase`; `FormulaPool::add` lives in the
missing `FormulaPool.tpp`): look the shape up in `mPool`; if present, discard
the candidate and return the existing node; otherwise publish the candidate
under the next id `k` and its negation (via `createNegatedContent`, which is in
`src/`) under `k+1`, inserting only the base into `mPool`.  For a
non-constraint node the negation is a NOT node whose sub-formula handle
registers one usage on the base (spec §3: handle construction registers); a
constraint pair starts unused. -/
def baseUsagesOf (c : FContent) : Nat :=
  match c with | .fcstr _ => 0 | _ => 1

def FPool.add (p : FPool) (c : FContent) : FPool × Nat :=
  match p.lookupContent c with
  | some n => (p, n.id)
  | none =>
    let k := p.idAllocator
    let baseU : Nat := baseUsagesOf c
    (⟨k + 2,
      p.nodes ++ [⟨k, c, k + 1, baseU, 0⟩, ⟨k + 1, negContentOf c k, k, 0, 0⟩],
      p.pool ++ [k],
      p.tseitinVars, p.tseitinVarToFormula, p.nextVar⟩, k)

/-- `FormulaPool::getBaseFormula` on an in-hand node: NOT nodes resolve to
their negation; constraint nodes resolve to whichever polarity's constraint
compares less (`isBaseFormula`, i.e. `a < b` on the two stored constraints);
every other node is its own base. -/
def FPool.baseOfNode (p : FPool) (n : FNode) : Nat :=
  match n.content with
  | .fnot _ => n.negId
  | .fcstr c =>
    match p.contentOf n.negId with
    | some (.fcstr cneg) => if c.ltb cneg then n.id else n.negId
    | _ => n.id
  | _ => n.id

/-- `FormulaPool::getBaseFormula` by id. -/
def FPool.getBaseFormula (p : FPool) (i : Nat) : Nat :=
  match p.findNode i with
  | none => i
  | some n => p.baseOfNode n

/-- Replace the `mUsages` field of the node with the given id. -/
def FPool.setUsages (p : FPool) (i : Nat) (f : Nat → Nat) : FPool :=
  { p with nodes := p.nodes.map (fun n => if n.id = i then
      ⟨n.id, n.content, n.negId, f n.usages, n.difficulty⟩ else n) }

/-- Replace the `mDifficulty` field of the node with the given id. -/
def FPool.setDifficulty (p : FPool) (i : Nat) (d : Nat) : FPool :=
  { p with nodes := p.nodes.map (fun n => if n.id = i then
      ⟨n.id, n.content, n.negId, n.usages, d⟩ else n) }

/-- Whether the node at `i` has constraint type (`_elem->mType == CONSTRAINT`). -/
def FPool.isConstraintAt (p : FPool) (i : Nat) : Bool :=
  match p.contentOf i with
  | some c => c.isConstraintType
  | none => false

/-- `FormulaPool::reg`: increment the usage counter of the base formula of the
given node; if the counter just became 1 and the *given* node has constraint
type, increment once more. -/
def FPool.reg (p : FPool) (i : Nat) : FPool :=
  let tmp := p.getBaseFormula i
  let p1 := p.setUsages tmp (· + 1)
  if p1.usagesOf tmp == 1 && p.isConstraintAt i then p1.setUsages tmp (· + 1)
  else p1

/-- Remove the base node `b` and its negation: `mPool.erase(tmp)` followed by
`delete tmp->mNegation; delete tmp`. -/
def FPool.deletePair (p : FPool) (b : Nat) : FPool :=
  let bn := p.negIdOf b
  { p with pool := p.pool.erase b,
           nodes := p.nodes.filter (fun n => !(n.id = b : Bool) && !(n.id = bn : Bool)) }

/-- `FormulaPool::freeTseitinVariable`: if `toDelete` has a Tseitin placeholder
whose own usage count is 1, delete the placeholder pair and both map entries
(returning false); if it is used, report that `toDelete` is still pinned.
Symmetrically, if `toDelete` *is* a placeholder for some formula whose own
usage count is 1, delete that formula's base pair and both map entries;
otherwise report pinned.  Nodes without Tseitin involvement return false. -/
def FPool.freeTseitinVariable (p : FPool) (toDelete : Nat) : Bool × FPool :=
  match lookupKV p.tseitinVars toDelete with
  | some v =>
    if p.usagesOf v = 1 then
      let vneg := p.negIdOf v
      (false, ⟨p.idAllocator,
        p.nodes.filter (fun n => !(n.id = v : Bool) && !(n.id = vneg : Bool)),
        p.pool.erase v,
        eraseKV p.tseitinVars toDelete,
        eraseKV p.tseitinVarToFormula v,
        p.nextVar⟩)
    else (true, p)
  | none =>
    match lookupKV p.tseitinVarToFormula toDelete with
    | some fid =>
      if p.usagesOf fid = 1 then
        let b := p.getBaseFormula fid
        let bneg := p.negIdOf b
        (false, ⟨p.idAllocator,
          p.nodes.filter (fun n => !(n.id = b : Bool) && !(n.id = bneg : Bool)),
          p.pool.erase b,
          eraseKV p.tseitinVars fid,
          eraseKV p.tseitinVarToFormula toDelete,
          p.nextVar⟩)
      else (true, p)
    | none => (false, p)

/-- `FormulaPool::free`: decrement the usage counter of the base formula; when
it drops to 1 (the single remaining internal use), delete the base together
with its negation — removing the `mPool` entry — unless one of the two
polarities is still pinned by a Tseitin mapping. -/
def FPool.free (p : FPool) (i : Nat) : FPool :=
  let tmp := p.getBaseFormula i
  let p1 := p.setUsages tmp (· - 1)
  if p1.usagesOf tmp = 1 then
    let r1 := p1.freeTseitinVariable tmp
    let r2 := r1.2.freeTseitinVariable (r1.2.negIdOf tmp)
    if !(r1.1 || r2.1) then r2.2.deletePair tmp else r2.2
  else p1

/-- `FormulaPool::getTseitinVar`: the existing placeholder for the formula, or
TRUE (id 1); the pool is returned to make the absence of side effects a stated
fact. -/
def FPool.getTseitinVar (p : FPool) (i : Nat) : FPool × Nat :=
  match lookupKV p.tseitinVars i with
  | some v => (p, v)
  | none => (p, 1)

/-- `FormulaPool::createTseitinVar`: if the formula already has a placeholder,
return it; otherwise create a fresh Boolean-variable formula (via
`carl::freshBooleanVariable()`, modelled by the `nextVar` counter), copy the
formula's difficulty onto it, record both directions of the mapping, and
return it. -/
def FPool.createTseitinVar (p : FPool) (i : Nat) : FPool × Nat :=
  match lookupKV p.tseitinVars i with
  | some v => (p, v)
  | none =>
    let v := p.nextVar
    let p0 : FPool := { p with nextVar := v + 1 }
    let r := p0.add (.fbool v)
    let p2 := r.1.setDifficulty r.2 (r.1.difficultyOf i)
    ({ p2 with tseitinVars := p2.tseitinVars ++ [(i, r.2)],
               tseitinVarToFormula := p2.tseitinVarToFormula ++ [(r.2, i)] }, r.2)

/-- `FormulaPool::create(Variable::Arg)`: wrap a Boolean variable. -/
def FPool.createBool (p : FPool) (v : Nat) : FPool × Nat := p.add (.fbool v)

/-- `FormulaPool::create(Constraint&&)`: identically false/true constraints
fold to the FALSE/TRUE singletons; otherwise the polarity whose constraint
compares less is interned as the base (`isBaseFormula`), and the other
polarity is returned through the base's negation link. -/
def FPool.createConstraint (p : FPool) (c : Constraint) : FPool × Nat :=
  match c.isConsistent with
  | 0 => (p, 2)
  | 1 => (p, 1)
  | _ =>
    if c.ltb c.negation then p.add (.fcstr c)
    else
      let r := p.add (.fcstr c.negation)
      (r.1, r.1.negIdOf r.2)

/-- `FormulaPool::create(NOT, f)`: return the operand's stored negation; the
pool is untouched (no node is published). -/
def FPool.createNot (p : FPool) (i : Nat) : FPool × Nat := (p, p.negIdOf i)

/-! Section: FormulaPool invariant -/

/-- Whether a content's Boolean-variable payload (if any) is below the fresh
variable allocator bound. -/
def boolVarOK (c : FContent) (bound : Nat) : Bool :=
  match c with
  | .fbool w => w < bound
  | _ => true

theorem boolVarOK_of_lt {w bound : Nat} (h : w < bound) :
    boolVarOK (.fbool w) bound = true := by
  simp [boolVarOK]
  omega

theorem lt_of_boolVarOK {c : FContent} {w bound : Nat} (h : boolVarOK c bound = true)
    (hc : c = .fbool w) : w < bound := by
  subst hc
  simp [boolVarOK] at h
  omega

/-- Well-formedness of a `FormulaPool` state, as established at construction
and maintained by the publishing operations: the allocator is past the two
singleton ids; ids are unique and below the allocator; TRUE/FALSE (ids 1, 2)
are present, shaped and mutually negated; every published node (id ≥ 3) forms
a mutually linked pair with its negation, whose shape matches
`createNegatedContent`; table entries are existing base formulas and exactly
one polarity of every published pair is table-resident; Tseitin map entries
mention existing ids only; Boolean-variable payloads are below the fresh
variable allocator. -/
def FPool.Inv (p : FPool) : Prop :=
  3 ≤ p.idAllocator
  ∧ (p.nodes.map (·.id)).Nodup
  ∧ (∀ n ∈ p.nodes, 1 ≤ n.id ∧ n.id < p.idAllocator ∧ n.negId < p.idAllocator)
  ∧ (∃ n ∈ p.nodes, n.id = 1)
  ∧ (∃ n ∈ p.nodes, n.id = 2)
  ∧ (∀ n ∈ p.nodes, (n.id = 1 → n.content = .ftrue ∧ n.negId = 2)
      ∧ (n.id = 2 → n.content = .ffalse ∧ n.negId = 1))
  ∧ (∀ n ∈ p.nodes, 3 ≤ n.id → ∃ m ∈ p.nodes, m.id = n.negId ∧ m.negId = n.id
      ∧ m.id ≠ n.id
      ∧ (m.content = negContentOf n.content n.id ∨ n.content = negContentOf m.content m.id))
  ∧ (∀ i ∈ p.pool, ∃ n ∈ p.nodes, n.id = i)
  ∧ (∀ i ∈ p.pool, p.getBaseFormula i = i)
  ∧ (∀ n ∈ p.nodes, 3 ≤ n.id → (n.id ∈ p.pool ↔ n.negId ∉ p.pool))
  ∧ (∀ kv ∈ p.tseitinVars, kv.1 < p.idAllocator ∧ kv.2 < p.idAllocator)
  ∧ (∀ kv ∈ p.tseitinVarToFormula, kv.1 < p.idAllocator)
  ∧ (∀ n ∈ p.nodes, boolVarOK n.content p.nextVar = true)

instance (p : FPool) : Decidable p.Inv := by
  unfold FPool.Inv
  infer_instance

theorem find?_id_of_mem {l : List FNode} (hnd : (l.map (·.id)).Nodup)
    {n : FNode} (hn : n ∈ l) : l.find? (fun m => decide (m.id = n.id)) = some n := by
  induction l with
  | nil => cases hn
  | cons a l ih =>
    rcases List.mem_cons.mp hn with rfl | hn'
    · simp [List.find?]
    · have hne : ¬ (a.id = n.id) := by
        intro hEq
        have hmem : a.id ∈ l.map (·.id) := hEq ▸ List.mem_map_of_mem _ hn'
        rw [List.map_cons, List.nodup_cons] at hnd
        exact hnd.1 hmem
      rw [List.find?_cons_of_neg _ (by simpa using hne)]
      exact ih (by rw [List.map_cons, List.nodup_cons] at hnd; exact hnd.2) hn'

/-- With unique ids, looking a listed node up by its id returns that node. -/
theorem findNode_of_mem {p : FPool} (hnd : (p.nodes.map (·.id)).Nodup)
    {n : FNode} (hn : n ∈ p.nodes) : p.findNode n.id = some n :=
  find?_id_of_mem hnd hn

theorem findNode_mem {p : FPool} {i : Nat} {n : FNode}
    (h : p.findNode i = some n) : n ∈ p.nodes ∧ n.id = i := by
  refine ⟨List.mem_of_find?_eq_some h, ?_⟩
  have := List.find?_some h
  simpa using this

/-- Lookup by an id that no appended node carries ignores the appended nodes. -/
theorem find?_id_append {l L : List FNode} {i : Nat}
    (h : ∀ m ∈ L, m.id ≠ i) :
    (l ++ L).find? (fun n => decide (n.id = i)) = l.find? (fun n => decide (n.id = i)) := by
  rw [List.find?_append]
  have : L.find? (fun n => decide (n.id = i)) = none :=
    List.find?_eq_none.mpr (fun m hm => by simpa using h m hm)
  cases hf : l.find? (fun n => decide (n.id = i)) <;> simp [this, hf]

/-- `getBaseFormula` is determined by the node lookups it performs. -/
theorem getBaseFormula_congr {p q : FPool} {i : Nat}
    (h1 : q.findNode i = p.findNode i)
    (h2 : ∀ n, p.findNode i = some n → q.findNode n.negId = p.findNode n.negId) :
    q.getBaseFormula i = p.getBaseFormula i := by
  unfold FPool.getBaseFormula
  rw [h1]
  cases hf : p.findNode i with
  | none => rfl
  | some n =>
    show q.baseOfNode n = p.baseOfNode n
    unfold FPool.baseOfNode FPool.contentOf
    cases hc : n.content with
    | fnot s => rfl
    | fcstr c => rw [h2 n hf]
    | ftrue => rfl
    | ffalse => rfl
    | fbool v => rfl
    | fnary t subs => rfl

theorem inv_extend (p : FPool) (c : FContent) (hInv : p.Inv)
    (hnot : ∀ s, c ≠ .fnot s)
    (hcstr : ∀ cc, c = .fcstr cc → cc.ltb cc.negation = true)
    (hbool : ∀ w, c = .fbool w → w < p.nextVar) (baseU : Nat) :
    FPool.Inv ⟨p.idAllocator + 2,
      p.nodes ++ [⟨p.idAllocator, c, p.idAllocator + 1, baseU, 0⟩,
        ⟨p.idAllocator + 1, negContentOf c p.idAllocator, p.idAllocator, 0, 0⟩],
      p.pool ++ [p.idAllocator],
      p.tseitinVars, p.tseitinVarToFormula, p.nextVar⟩ := by
  obtain ⟨hAl, hNd, hBd, hT, hF, hTF, hPair, hPoolSub, hBase, hOne, hTs, hTsR, hBv⟩ := hInv
  set k := p.idAllocator with hkdef
  set nb : FNode := ⟨k, c, k + 1, baseU, 0⟩ with hnb
  set nm : FNode := ⟨k + 1, negContentOf c k, k, 0, 0⟩ with hnm
  set p' : FPool := ⟨k + 2, p.nodes ++ [nb, nm], p.pool ++ [k],
    p.tseitinVars, p.tseitinVarToFormula, p.nextVar⟩ with hp'
  have hidsmall : ∀ n ∈ p.nodes, n.id < k := fun n hn => (hBd n hn).2.1
  have hnegsmall : ∀ n ∈ p.nodes, n.negId < k := fun n hn => (hBd n hn).2.2
  have hpoolsmall : ∀ i ∈ p.pool, i < k := by
    intro i hi
    obtain ⟨n, hn, rfl⟩ := hPoolSub i hi
    exact hidsmall n hn
  have hfind_old : ∀ i, i < k → p'.findNode i = p.findNode i := by
    intro i hi
    refine find?_id_append ?_
    intro m hm
    rcases List.mem_cons.mp hm with rfl | hm'
    · show k ≠ i
      omega
    · rcases List.mem_cons.mp hm' with rfl | hm''
      · show k + 1 ≠ i
        omega
      · cases hm''
  have hfind_base : p'.findNode k = some nb := by
    show (p.nodes ++ [nb, nm]).find? (fun n => decide (n.id = k)) = some nb
    rw [List.find?_append]
    have hold : p.nodes.find? (fun n => decide (n.id = k)) = none :=
      List.find?_eq_none.mpr (fun n hn => by
        have := hidsmall n hn; simp; omega)
    rw [hold]
    simp [List.find?, hnb]
  have hfind_neg : p'.findNode (k + 1) = some nm := by
    show (p.nodes ++ [nb, nm]).find? (fun n => decide (n.id = k + 1)) = some nm
    rw [List.find?_append]
    have hold : p.nodes.find? (fun n => decide (n.id = k + 1)) = none :=
      List.find?_eq_none.mpr (fun n hn => by
        have := hidsmall n hn; simp; omega)
    rw [hold]
    simp [List.find?, hnb, hnm]
  have hbase_old : ∀ i, i < k → p'.getBaseFormula i = p.getBaseFormula i := by
    intro i hi
    refine getBaseFormula_congr (hfind_old i hi) ?_
    intro n hfn
    obtain ⟨hn, _⟩ := findNode_mem hfn
    exact hfind_old n.negId (hnegsmall n hn)
  refine ⟨?_, ?_, ?_, ?_, ?_, ?_, ?_, ?_, ?_, ?_, ?_, ?_, ?_⟩
  · show 3 ≤ k + 2
    omega
  · show ((p.nodes ++ [nb, nm]).map (·.id)).Nodup
    rw [List.map_append]
    refine List.Nodup.append hNd ?_ ?_
    · show List.Nodup [k, k + 1]
      simp
    · rw [List.disjoint_left]
      intro a ha hb
      obtain ⟨n, hn, rfl⟩ := List.mem_map.mp ha
      have hsm := hidsmall n hn
      have hb' : n.id ∈ [k, k + 1] := hb
      rcases List.mem_cons.mp hb' with h | h
      · omega
      · rcases List.mem_cons.mp h with h | h
        · omega
        · cases h
  · intro n hn
    rcases List.mem_append.mp hn with hn' | hn'
    · have h := hBd n hn'
      refine ⟨h.1, ?_, ?_⟩
      · show n.id < k + 2
        omega
      · show n.negId < k + 2
        omega
    · rcases List.mem_cons.mp hn' with rfl | hn''
      · show 1 ≤ k ∧ k < k + 2 ∧ k + 1 < k + 2
        omega
      · rcases List.mem_cons.mp hn'' with rfl | h
        · show 1 ≤ k + 1 ∧ k + 1 < k + 2 ∧ k < k + 2
          omega
        · cases h
  · obtain ⟨n, hn, h⟩ := hT
    exact ⟨n, List.mem_append_left _ hn, h⟩
  · obtain ⟨n, hn, h⟩ := hF
    exact ⟨n, List.mem_append_left _ hn, h⟩
  · intro n hn
    rcases List.mem_append.mp hn with hn' | hn'
    · exact hTF n hn'
    · rcases List.mem_cons.mp hn' with rfl | hn''
      · constructor
        · intro h
          exact absurd (show k = 1 from h) (by omega)
        · intro h
          exact absurd (show k = 2 from h) (by omega)
      · rcases List.mem_cons.mp hn'' with rfl | h
        · constructor
          · intro h
            exact absurd (show k + 1 = 1 from h) (by omega)
          · intro h
            exact absurd (show k + 1 = 2 from h) (by omega)
        · cases h
  · intro n hn h3
    rcases List.mem_append.mp hn with hn' | hn'
    · obtain ⟨m, hm, h1, h2, h3', h4⟩ := hPair n hn' h3
      exact ⟨m, List.mem_append_left _ hm, h1, h2, h3', h4⟩
    · rcases List.mem_cons.mp hn' with rfl | hn''
      · refine ⟨nm, List.mem_append_right _ (by simp), ?_, ?_, ?_, Or.inl ?_⟩
        · show k + 1 = k + 1
          rfl
        · show k = k
          rfl
        · show k + 1 ≠ k
          omega
        · show negContentOf c k = negContentOf c k
          rfl
      · rcases List.mem_cons.mp hn'' with rfl | h
        · refine ⟨nb, List.mem_append_right _ (by simp), ?_, ?_, ?_, Or.inr ?_⟩
          · show k = k
            rfl
          · show k + 1 = k + 1
            rfl
          · show k ≠ k + 1
            omega
          · show negContentOf c k = negContentOf c k
            rfl
        · cases h
  · intro i hi
    rcases List.mem_append.mp hi with hi' | hi'
    · obtain ⟨n, hn, h⟩ := hPoolSub i hi'
      exact ⟨n, List.mem_append_left _ hn, h⟩
    · rcases List.mem_cons.mp hi' with h | h
      · exact ⟨nb, List.mem_append_right _ (by simp), h.symm⟩
      · cases h
  · intro i hi
    rcases List.mem_append.mp hi with hi' | hi'
    · rw [hbase_old i (hpoolsmall i hi')]
      exact hBase i hi'
    · rcases List.mem_cons.mp hi' with h | h
      · subst h
        show p'.getBaseFormula k = k
        unfold FPool.getBaseFormula
        rw [hfind_base]
        show p'.baseOfNode nb = k
        unfold FPool.baseOfNode
        cases hc : nb.content with
        | fnot s =>
          exact absurd (show c = .fnot s from hc) (hnot s)
        | fcstr cc =>
          have hcc : c = .fcstr cc := hc
          have hneg : p'.contentOf nb.negId = some (.fcstr cc.negation) := by
            show p'.contentOf (k + 1) = some (.fcstr cc.negation)
            unfold FPool.contentOf
            rw [hfind_neg]
            show some (negContentOf c k) = some (.fcstr cc.negation)
            rw [hcc]
            rfl
          rw [hneg]
          show (if cc.ltb cc.negation = true then nb.id else nb.negId) = k
          rw [hcstr cc hcc, if_pos rfl]
        | ftrue => rfl
        | ffalse => rfl
        | fbool v => rfl
        | fnary t subs => rfl
      · cases h
  · intro n hn h3
    have hmempool : ∀ j, j < k → (j ∈ p.pool ++ [k] ↔ j ∈ p.pool) := by
      intro j hj
      rw [List.mem_append]
      constructor
      · intro h
        rcases h with h | h
        · exact h
        · simp at h
          omega
      · exact Or.inl
    rcases List.mem_append.mp hn with hn' | hn'
    · show n.id ∈ p.pool ++ [k] ↔ n.negId ∉ p.pool ++ [k]
      rw [hmempool n.id (hidsmall n hn'), hmempool n.negId (hnegsmall n hn')]
      exact hOne n hn' h3
    · rcases List.mem_cons.mp hn' with rfl | hn''
      · have hl : nb.id ∈ p.pool ++ [k] := List.mem_append_right _ (by simp [hnb])
        have hr : nb.negId ∉ p.pool ++ [k] := by
          rw [List.mem_append]
          rintro (h | h)
          · have h2 := hpoolsmall _ h
            have h3 : nb.negId = k + 1 := rfl
            omega
          · have h3 : k + 1 = k := by simpa using h
            omega
        exact iff_of_true hl hr
      · rcases List.mem_cons.mp hn'' with rfl | h
        · have hl : nm.id ∉ p.pool ++ [k] := by
            rw [List.mem_append]
            rintro (h | h)
            · have h2 := hpoolsmall _ h
              have h3 : nm.id = k + 1 := rfl
              omega
            · have h3 : k + 1 = k := by simpa using h
              omega
          have hr : nm.negId ∈ p.pool ++ [k] := List.mem_append_right _ (by simp [hnm])
          exact iff_of_false hl (fun hcon => hcon hr)
        · cases h
  · intro kv hkv
    have h := hTs kv hkv
    refine ⟨?_, ?_⟩
    · show kv.1 < k + 2
      omega
    · show kv.2 < k + 2
      omega
  · intro kv hkv
    have h := hTsR kv hkv
    show kv.1 < k + 2
    omega
  · intro n hn
    rcases List.mem_append.mp hn with hn' | hn'
    · exact hBv n hn'
    · rcases List.mem_cons.mp hn' with rfl | hn''
      · show boolVarOK c p.nextVar = true
        cases hc : c with
        | fbool w => exact boolVarOK_of_lt (hbool w hc)
        | ftrue => rfl
        | ffalse => rfl
        | fnot s => rfl
        | fcstr cc => rfl
        | fnary t subs => rfl
      · rcases List.mem_cons.mp hn'' with rfl | h
        · show boolVarOK (negContentOf c k) p.nextVar = true
          cases c <;> rfl
        · cases h

/-- Publishing a well-shaped candidate preserves the invariant.  The shape
hypotheses are exactly what the public constructors guarantee: NOT contents
are never interned (they only arise as the second half of a pair), interned
constraints are base-polarity, and Boolean payloads come from the fresh
variable allocator. -/
theorem add_eq_found (p : FPool) (c : FContent) {n : FNode}
    (hlk : p.lookupContent c = some n) : p.add c = (p, n.id) := by
  unfold FPool.add
  rw [hlk]

theorem add_eq_new (p : FPool) (c : FContent)
    (hlk : p.lookupContent c = none) :
    p.add c = (⟨p.idAllocator + 2,
      p.nodes ++ [⟨p.idAllocator, c, p.idAllocator + 1, baseUsagesOf c, 0⟩,
        ⟨p.idAllocator + 1, negContentOf c p.idAllocator, p.idAllocator, 0, 0⟩],
      p.pool ++ [p.idAllocator],
      p.tseitinVars, p.tseitinVarToFormula, p.nextVar⟩, p.idAllocator) := by
  unfold FPool.add
  rw [hlk]

theorem add_inv (p : FPool) (c : FContent) (hInv : p.Inv)
    (hnot : ∀ s, c ≠ .fnot s)
    (hcstr : ∀ cc, c = .fcstr cc → cc.ltb cc.negation = true)
    (hbool : ∀ w, c = .fbool w → w < p.nextVar) :
    (p.add c).1.Inv := by
  match hlk : p.lookupContent c with
  | some n =>
    rw [add_eq_found p c hlk]
    exact hInv
  | none =>
    rw [add_eq_new p c hlk]
    exact inv_extend p c hInv hnot hcstr hbool _

/-- C3: negation involution.  In every well-formed pool the negation link is
mutual (`negation(negation(f)) == f`) and no formula is its own negation; and
`create(NOT, f)` returns the operand's stored negation directly, leaving the
pool untouched (it never publishes a node). -/
theorem claim3_negation_involution :
    (∀ (p : FPool), p.Inv → ∀ n ∈ p.nodes,
      p.negIdOf (p.negIdOf n.id) = n.id ∧ p.negIdOf n.id ≠ n.id)
    ∧ (∀ (p : FPool) (i : Nat), p.createNot i = (p, p.negIdOf i)) := by
  constructor
  · intro p hInv n hn
    obtain ⟨hAl, hNd, hBd, hT, hF, hTF, hPair, _, _, _, _, _, _⟩ := hInv
    have hfind : p.findNode n.id = some n := findNode_of_mem hNd hn
    have hneg1 : p.negIdOf n.id = n.negId := by
      unfold FPool.negIdOf
      rw [hfind]
    have hcase : n.id = 1 ∨ n.id = 2 ∨ 3 ≤ n.id := by
      have := (hBd n hn).1
      omega
    rcases hcase with h1 | h2 | h3
    · have hsh := (hTF n hn).1 h1
      obtain ⟨q, hq, hq2⟩ := hF
      have hfq : p.findNode 2 = some q := by
        have := findNode_of_mem hNd hq
        rwa [hq2] at this
      have hqsh := (hTF q hq).2 hq2
      rw [hneg1, hsh.2]
      constructor
      · unfold FPool.negIdOf
        rw [hfq]
        show q.negId = n.id
        rw [hqsh.2, h1]
      · omega
    · have hsh := (hTF n hn).2 h2
      obtain ⟨q, hq, hq1⟩ := hT
      have hfq : p.findNode 1 = some q := by
        have := findNode_of_mem hNd hq
        rwa [hq1] at this
      have hqsh := (hTF q hq).1 hq1
      rw [hneg1, hsh.2]
      constructor
      · unfold FPool.negIdOf
        rw [hfq]
        show q.negId = n.id
        rw [hqsh.2, h2]
      · omega
    · obtain ⟨m, hm, hmid, hmneg, hmne, _⟩ := hPair n hn h3
      have hfm : p.findNode n.negId = some m := by
        have := findNode_of_mem hNd hm
        rwa [hmid] at this
      rw [hneg1]
      constructor
      · unfold FPool.negIdOf
        rw [hfm]
        show m.negId = n.id
        exact hmneg
      · rw [← hmid]
        exact hmne
  · intro p i
    rfl

/-- A concrete well-formed pool: a Boolean atom (ids 3/4) and a constraint
pair (ids 5/6, keyed by the polarity whose constraint compares less), the
state reached from `FPool.mk0` by wrapping Boolean variable 0 (handed out by
the external allocator, so `nextVar` is 1) and then the constraint. -/
def demoPool : FPool :=
  ⟨7, [⟨1, .ftrue, 2, 1, 0⟩, ⟨2, .ffalse, 1, 1, 0⟩,
       ⟨3, .fbool 0, 4, 1, 0⟩, ⟨4, .fnot 3, 3, 0, 0⟩,
       ⟨5, .fcstr ⟨false, 0, .req⟩, 6, 0, 0⟩, ⟨6, .fcstr ⟨false, 0, .rneq⟩, 5, 0, 0⟩],
    [1, 2, 3, 5], [], [], 1⟩

theorem demoPool_reached :
    ((({ FPool.mk0 with nextVar := 1 } : FPool).createBool 0).1.createConstraint
      ⟨false, 0, .req⟩).1 = demoPool := by decide

/-- C3 witness: the involution at nodes 3/4 of the concrete pool. -/
theorem claim3_witness :
    demoPool.Inv
    ∧ demoPool.negIdOf (demoPool.negIdOf 3) = 3
    ∧ demoPool.negIdOf 3 ≠ 3
    ∧ demoPool.createNot 3 = (demoPool, demoPool.negIdOf 3) := by
  have hInv : demoPool.Inv := by decide
  have h := claim3_negation_involution.1 demoPool hInv ⟨3, .fbool 0, 4, 1, 0⟩ (by decide)
  exact ⟨hInv, h.1, h.2, claim3_negation_involution.2 demoPool 3⟩

/-- C4: deterministic base-formula polarity.  The invariant — exactly one of a
published pair is table-resident, table entries are their own base (for
constraints this is the polarity whose constraint compares less), and the base
of a NOT node is its negation — holds at construction and is preserved by the
atom constructors; `create(Constraint)` interns the lesser polarity and
answers the other through the negation link. -/
theorem claim4_base_polarity :
    FPool.mk0.Inv
    ∧ (∀ (p : FPool) (c : Constraint), p.Inv → (p.createConstraint c).1.Inv)
    ∧ (∀ (p : FPool) (v : Nat), p.Inv → v < p.nextVar → (p.createBool v).1.Inv)
    ∧ (∀ (p : FPool) (i : Nat) (n : FNode) (s : Nat), p.findNode i = some n →
        n.content = .fnot s → p.getBaseFormula i = n.negId)
    ∧ (∀ (p : FPool), p.Inv → ∀ i ∈ p.pool, p.getBaseFormula i = i)
    ∧ (∀ (p : FPool), p.Inv → ∀ n ∈ p.nodes, 3 ≤ n.id →
        (n.id ∈ p.pool ↔ n.negId ∉ p.pool)) := by
  refine ⟨by decide, ?_, ?_, ?_, ?_, ?_⟩
  · intro p c hInv
    unfold FPool.createConstraint
    match hcon : c.isConsistent with
    | 0 => exact hInv
    | 1 => exact hInv
    | Nat.succ (Nat.succ m) =>
      by_cases hlt : c.ltb c.negation = true
      · rw [if_pos hlt]
        refine add_inv p _ hInv (fun s h => by cases h) ?_ (fun w h => by cases h)
        intro cc hcc
        cases hcc
        exact hlt
      · rw [if_neg hlt]
        show (p.add (.fcstr c.negation)).1.Inv
        refine add_inv p _ hInv (fun s h => by cases h) ?_ (fun w h => by cases h)
        intro cc hcc
        cases hcc
        have htot := Constraint.ltb_total c c.negation
          (fun hEq => Constraint.negation_ne c hEq.symm)
        rw [Constraint.negation_involutive]
        rcases htot with h | h
        · exact absurd h hlt
        · exact h
  · intro p v hInv hv
    exact add_inv p _ hInv (fun s h => by cases h) (fun cc h => by cases h)
      (fun w h => by cases h; exact hv)
  · intro p i n s hf hc
    unfold FPool.getBaseFormula
    rw [hf]
    show p.baseOfNode n = n.negId
    unfold FPool.baseOfNode
    rw [hc]
  · intro p hInv
    exact hInv.2.2.2.2.2.2.2.2.1
  · intro p hInv
    exact hInv.2.2.2.2.2.2.2.2.2.1

/-- C4 witness: at the concrete pool, interning the greater-polarity constraint
returns the negation of the interned base; the base of the NOT node 4 is 3;
node 3 is table-resident while its negation 4 is not. -/
theorem claim4_witness :
    demoPool.Inv
    ∧ (demoPool.createConstraint ⟨false, 1, .rless⟩).1.Inv
    ∧ (demoPool.createBool 0).1.Inv
    ∧ demoPool.getBaseFormula 4 = 3
    ∧ demoPool.getBaseFormula 5 = 5
    ∧ (3 ∈ demoPool.pool ↔ (4 : Nat) ∉ demoPool.pool) := by
  have hInv : demoPool.Inv := by decide
  refine ⟨hInv, claim4_base_polarity.2.1 demoPool _ hInv,
    claim4_base_polarity.2.2.1 demoPool 0 hInv (by decide),
    claim4_base_polarity.2.2.2.1 demoPool 4 ⟨4, .fnot 3, 3, 0, 0⟩ 3 (by decide) rfl,
    claim4_base_polarity.2.2.2.2.1 demoPool hInv 5 (by decide),
    claim4_base_polarity.2.2.2.2.2 demoPool hInv ⟨3, .fbool 0, 4, 1, 0⟩ (by decide) (by decide)⟩

/-! Section: Usage-counter tracking lemmas -/

theorem findNode_setUsages (p : FPool) (i j : Nat) (f : Nat → Nat) :
    (p.setUsages i f).findNode j =
      (p.findNode j).map (fun n => if n.id = i then
        ⟨n.id, n.content, n.negId, f n.usages, n.difficulty⟩ else n) := by
  unfold FPool.setUsages FPool.findNode
  rw [List.find?_map]
  have hpred : ((fun n => decide (n.id = j)) ∘ fun n : FNode =>
      if n.id = i then ⟨n.id, n.content, n.negId, f n.usages, n.difficulty⟩ else n)
      = (fun n : FNode => decide (n.id = j)) := by
    funext n
    by_cases h : n.id = i <;> simp [h]
  rw [hpred]

theorem usagesOf_setUsages_same (p : FPool) (i : Nat) (f : Nat → Nat) {n : FNode}
    (h : p.findNode i = some n) : (p.setUsages i f).usagesOf i = f n.usages := by
  unfold FPool.usagesOf
  rw [findNode_setUsages, h]
  have hid : n.id = i := (findNode_mem h).2
  simp [hid]

theorem usagesOf_setUsages_none (p : FPool) (i : Nat) (f : Nat → Nat)
    (h : p.findNode i = none) : (p.setUsages i f).usagesOf i = 0 := by
  unfold FPool.usagesOf
  rw [findNode_setUsages, h]
  rfl

theorem usagesOf_setUsages_other (p : FPool) (i j : Nat) (f : Nat → Nat) (hij : j ≠ i) :
    (p.setUsages i f).usagesOf j = p.usagesOf j := by
  unfold FPool.usagesOf
  rw [findNode_setUsages]
  cases h : p.findNode j with
  | none => rfl
  | some n =>
    have hid : n.id = j := (findNode_mem h).2
    have : ¬ (n.id = i) := by rw [hid]; exact hij
    simp [this]

theorem contentOf_setUsages (p : FPool) (i j : Nat) (f : Nat → Nat) :
    (p.setUsages i f).contentOf j = p.contentOf j := by
  unfold FPool.contentOf
  rw [findNode_setUsages]
  cases h : p.findNode j with
  | none => rfl
  | some n => by_cases hni : n.id = i <;> simp [hni]

theorem negIdOf_setUsages (p : FPool) (i j : Nat) (f : Nat → Nat) :
    (p.setUsages i f).negIdOf j = p.negIdOf j := by
  unfold FPool.negIdOf
  rw [findNode_setUsages]
  cases h : p.findNode j with
  | none => rfl
  | some n => by_cases hni : n.id = i <;> simp [hni]

theorem baseOfNode_ext (q p : FPool) (m n : FNode) (hid : m.id = n.id)
    (hc : m.content = n.content) (hg : m.negId = n.negId)
    (hcont : q.contentOf n.negId = p.contentOf n.negId) :
    q.baseOfNode m = p.baseOfNode n := by
  unfold FPool.baseOfNode
  rw [hid, hc, hg, hcont]

theorem getBase_setUsages (p : FPool) (i j : Nat) (f : Nat → Nat) :
    (p.setUsages i f).getBaseFormula j = p.getBaseFormula j := by
  unfold FPool.getBaseFormula
  rw [findNode_setUsages]
  cases h : p.findNode j with
  | none => rfl
  | some n =>
    show (p.setUsages i f).baseOfNode (if n.id = i then
      ⟨n.id, n.content, n.negId, f n.usages, n.difficulty⟩ else n) = p.baseOfNode n
    by_cases hni : n.id = i
    · rw [if_pos hni]
      exact baseOfNode_ext _ _ _ _ rfl rfl rfl (contentOf_setUsages p i n.negId f)
    · rw [if_neg hni]
      exact baseOfNode_ext _ _ _ _ rfl rfl rfl (contentOf_setUsages p i n.negId f)

theorem isConstraintAt_setUsages (p : FPool) (i j : Nat) (f : Nat → Nat) :
    (p.setUsages i f).isConstraintAt j = p.isConstraintAt j := by
  unfold FPool.isConstraintAt
  rw [contentOf_setUsages]

theorem setUsages_setUsages (p : FPool) (i : Nat) (f g : Nat → Nat) :
    (p.setUsages i f).setUsages i g = p.setUsages i (fun u => g (f u)) := by
  unfold FPool.setUsages
  simp only [List.map_map]
  have hfun : ((fun n : FNode => if n.id = i then
        ⟨n.id, n.content, n.negId, g n.usages, n.difficulty⟩ else n) ∘
      (fun n : FNode => if n.id = i then
        ⟨n.id, n.content, n.negId, f n.usages, n.difficulty⟩ else n))
      = fun n : FNode => if n.id = i then
        ⟨n.id, n.content, n.negId, g (f n.usages), n.difficulty⟩ else n := by
    funext n
    by_cases h : n.id = i <;> simp [h]
  rw [hfun]

/-- `free` when the decremented counter does not hit the deletion threshold 1:
a pure decrement on the base formula, no deletion (in particular a decrement
from 1 to 0 does *not* delete). -/
theorem free_no_delete (p : FPool) (i : Nat)
    (h : p.usagesOf (p.getBaseFormula i) ≠ 2) :
    p.free i = p.setUsages (p.getBaseFormula i) (· - 1) := by
  have hcond : (p.setUsages (p.getBaseFormula i) (· - 1)).usagesOf (p.getBaseFormula i) ≠ 1 := by
    cases hf : p.findNode (p.getBaseFormula i) with
    | none =>
      rw [usagesOf_setUsages_none p _ _ hf]
      omega
    | some n =>
      rw [usagesOf_setUsages_same p _ _ hf]
      have hu : p.usagesOf (p.getBaseFormula i) = n.usages := by
        unfold FPool.usagesOf
        rw [hf]
      rw [hu] at h
      omega
  simp only [FPool.free]
  rw [if_neg hcond]

/-- C10 (implicit): first-registration double increment for constraints.  When
the base representative's counter is 0, `reg` leaves it at 2 if the registered
formula has constraint type and at 1 otherwise; and `free` tests the
decremented counter against 1 — not 0 — as the deletion threshold, so a
decrement from 1 to 0 performs no deletion. -/
theorem claim10_constraint_double_increment :
    (∀ (p : FPool) (i : Nat) (n : FNode),
      p.findNode (p.getBaseFormula i) = some n → n.usages = 0 →
      (p.reg i).usagesOf (p.getBaseFormula i) = if p.isConstraintAt i then 2 else 1)
    ∧ (∀ (p : FPool) (i : Nat),
      p.usagesOf (p.getBaseFormula i) = 1 →
      p.free i = p.setUsages (p.getBaseFormula i) (· - 1)) := by
  constructor
  · intro p i n hf hu
    simp only [FPool.reg]
    have h1 : (p.setUsages (p.getBaseFormula i) (· + 1)).usagesOf (p.getBaseFormula i) = 1 := by
      rw [usagesOf_setUsages_same p _ _ hf, hu]
    by_cases hc : p.isConstraintAt i = true
    · rw [if_pos (by rw [h1, hc]; rfl)]
      have hf1 : (p.setUsages (p.getBaseFormula i) (· + 1)).findNode (p.getBaseFormula i) =
          some ⟨n.id, n.content, n.negId, n.usages + 1, n.difficulty⟩ := by
        rw [findNode_setUsages, hf]
        have hid : n.id = p.getBaseFormula i := (findNode_mem hf).2
        simp [hid]
      rw [usagesOf_setUsages_same _ _ _ hf1, hc, if_pos rfl]
      show n.usages + 1 + 1 = 2
      omega
    · have hcf : p.isConstraintAt i = false := by
        rcases Bool.eq_false_or_eq_true (p.isConstraintAt i) with h | h
        · exact absurd h hc
        · exact h
      rw [if_neg (by rw [hcf]; simp)]
      rw [h1, hcf]
      rfl
  · intro p i h
    exact free_no_delete p i (by omega)

/-- C10 witness: registering the constraint node 5 of the demo pool (usage 0)
leaves the counter at 2, registering the Boolean node 3 of a usage-0 variant
leaves it at 1, and freeing a usage-1 node only decrements. -/
theorem claim10_witness :
    demoPool.findNode (demoPool.getBaseFormula 5) = some ⟨5, .fcstr ⟨false, 0, .req⟩, 6, 0, 0⟩
    ∧ (demoPool.reg 5).usagesOf (demoPool.getBaseFormula 5) = 2
    ∧ demoPool.usagesOf (demoPool.getBaseFormula 3) = 1
    ∧ demoPool.free 3 = demoPool.setUsages (demoPool.getBaseFormula 3) (· - 1) := by
  have h1 := claim10_constraint_double_increment.1 demoPool 5
    ⟨5, .fcstr ⟨false, 0, .req⟩, 6, 0, 0⟩ (by decide) (by decide)
  have h2 := claim10_constraint_double_increment.2 demoPool 3 (by decide)
  refine ⟨by decide, ?_, by decide, h2⟩
  rw [h1]
  decide

/-! Section: Tseitin map lemmas -/

theorem lookupKV_append_none : ∀ {l : List (Nat × Nat)} {i : Nat},
    lookupKV l i = none → ∀ l', lookupKV (l ++ l') i = lookupKV l' i
  | [], _, _, l' => rfl
  | (k, v) :: rest, i, h, l' => by
    rw [List.cons_append]
    show (if k = i then some v else lookupKV (rest ++ l') i) = lookupKV l' i
    have h' : (if k = i then some v else lookupKV rest i) = none := h
    by_cases hk : k = i
    · rw [if_pos hk] at h'
      cases h'
    · rw [if_neg hk] at h'
      rw [if_neg hk]
      exact lookupKV_append_none h' l'

theorem lookupKV_none_of_bound : ∀ {l : List (Nat × Nat)} {i : Nat},
    (∀ kv ∈ l, kv.1 ≠ i) → lookupKV l i = none
  | [], _, _ => rfl
  | (k, v) :: rest, i, h => by
    show (if k = i then some v else lookupKV rest i) = none
    rw [if_neg (h (k, v) (List.mem_cons_self _ _))]
    exact lookupKV_none_of_bound (fun kv hkv => h kv (List.mem_cons_of_mem _ hkv))

theorem lookupKV_single (i v : Nat) : lookupKV [(i, v)] i = some v := by
  show (if i = i then some v else lookupKV [] i) = some v
  rw [if_pos rfl]

theorem add_tseitinVars (p : FPool) (c : FContent) :
    (p.add c).1.tseitinVars = p.tseitinVars := by
  unfold FPool.add
  cases h : p.lookupContent c <;> rfl

theorem add_tseitinRev (p : FPool) (c : FContent) :
    (p.add c).1.tseitinVarToFormula = p.tseitinVarToFormula := by
  unfold FPool.add
  cases h : p.lookupContent c <;> rfl

theorem setDifficulty_tseitinVars (p : FPool) (i d : Nat) :
    (p.setDifficulty i d).tseitinVars = p.tseitinVars := rfl

theorem setDifficulty_tseitinRev (p : FPool) (i d : Nat) :
    (p.setDifficulty i d).tseitinVarToFormula = p.tseitinVarToFormula := rfl

theorem createTseitinVar_found (p : FPool) (i v : Nat)
    (hlk : lookupKV p.tseitinVars i = some v) : p.createTseitinVar i = (p, v) := by
  unfold FPool.createTseitinVar
  rw [hlk]

theorem createTseitinVar_new (p : FPool) (i : Nat)
    (hlk : lookupKV p.tseitinVars i = none) :
    p.createTseitinVar i =
      (let r := ({ p with nextVar := p.nextVar + 1 } : FPool).add (.fbool p.nextVar)
       let p2 := r.1.setDifficulty r.2 (r.1.difficultyOf i)
       ({ p2 with tseitinVars := p2.tseitinVars ++ [(i, r.2)],
                  tseitinVarToFormula := p2.tseitinVarToFormula ++ [(r.2, i)] }, r.2)) := by
  unfold FPool.createTseitinVar
  rw [hlk]

/-- With a well-formed pool, the variable handed out by the external fresh
allocator has no formula in the pool, so the placeholder creation publishes a
fresh node (whose id is the allocator value). -/
theorem fresh_bool_not_found (p : FPool) (hInv : p.Inv) :
    ({ p with nextVar := p.nextVar + 1 } : FPool).lookupContent (.fbool p.nextVar) = none := by
  obtain ⟨_, _, _, _, _, _, _, _, _, _, _, _, hBv⟩ := hInv
  refine List.find?_eq_none.mpr (fun n hn => ?_)
  simp only [Bool.and_eq_true, decide_eq_true_eq, not_and]
  intro _
  intro hc
  have := lt_of_boolVarOK (hBv n hn) hc
  omega

/-- C9: Tseitin bookkeeping.  `createTseitinVar` is idempotent: the second and
every later call for the same formula returns the placeholder allocated by the
first, with no further state change; on first allocation both directions of
the mapping are recorded; `getTseitinVar` returns the existing placeholder, or
TRUE (id 1) when none exists, and never changes the pool. -/
theorem claim9_tseitin_bookkeeping :
    (∀ (p : FPool) (i : Nat),
      (p.createTseitinVar i).1.createTseitinVar i = p.createTseitinVar i)
    ∧ (∀ (p : FPool) (i : Nat), p.Inv → lookupKV p.tseitinVars i = none →
      lookupKV (p.createTseitinVar i).1.tseitinVars i = some (p.createTseitinVar i).2
      ∧ lookupKV (p.createTseitinVar i).1.tseitinVarToFormula (p.createTseitinVar i).2
          = some i)
    ∧ (∀ (p : FPool) (i : Nat), (p.getTseitinVar i).1 = p)
    ∧ (∀ (p : FPool) (i v : Nat), lookupKV p.tseitinVars i = some v →
      (p.getTseitinVar i).2 = v)
    ∧ (∀ (p : FPool) (i : Nat), lookupKV p.tseitinVars i = none →
      (p.getTseitinVar i).2 = 1) := by
  have htsv : ∀ (p : FPool) (i : Nat), lookupKV p.tseitinVars i = none →
      (p.createTseitinVar i).1.tseitinVars = p.tseitinVars ++ [(i, (p.createTseitinVar i).2)] := by
    intro p i hlk
    rw [createTseitinVar_new p i hlk]
    show (({ p with nextVar := p.nextVar + 1 } : FPool).add
        (.fbool p.nextVar)).1.tseitinVars ++ _ = _
    rw [add_tseitinVars]
  refine ⟨?_, ?_, ?_, ?_, ?_⟩
  · intro p i
    cases hlk : lookupKV p.tseitinVars i with
    | some v =>
      have h1 := createTseitinVar_found p i v hlk
      rw [h1]
      exact h1
    | none =>
      have h2 := htsv p i hlk
      have hfind : lookupKV (p.createTseitinVar i).1.tseitinVars i
          = some (p.createTseitinVar i).2 := by
        rw [h2, lookupKV_append_none hlk, lookupKV_single]
      have h3 := createTseitinVar_found (p.createTseitinVar i).1 i _ hfind
      rw [h3]
  · intro p i hInv hlk
    refine ⟨by rw [htsv p i hlk, lookupKV_append_none hlk, lookupKV_single], ?_⟩
    have hTsR : ∀ kv ∈ p.tseitinVarToFormula, kv.1 < p.idAllocator :=
      hInv.2.2.2.2.2.2.2.2.2.2.2.1
    have hr := add_eq_new ({ p with nextVar := p.nextVar + 1 } : FPool) (.fbool p.nextVar)
      (fresh_bool_not_found p hInv)
    rw [createTseitinVar_new p i hlk]
    show lookupKV ((({ p with nextVar := p.nextVar + 1 } : FPool).add
        (.fbool p.nextVar)).1.tseitinVarToFormula ++
        [((({ p with nextVar := p.nextVar + 1 } : FPool).add (.fbool p.nextVar)).2, i)])
        (({ p with nextVar := p.nextVar + 1 } : FPool).add (.fbool p.nextVar)).2 = some i
    rw [add_tseitinRev, hr]
    show lookupKV (p.tseitinVarToFormula ++ [(p.idAllocator, i)]) p.idAllocator = some i
    rw [lookupKV_append_none (lookupKV_none_of_bound
      (fun kv hkv => by have := hTsR kv hkv; omega)), lookupKV_single]
  · intro p i
    unfold FPool.getTseitinVar
    cases hlk : lookupKV p.tseitinVars i <;> rfl
  · intro p i v hlk
    unfold FPool.getTseitinVar
    rw [hlk]
  · intro p i hlk
    unfold FPool.getTseitinVar
    rw [hlk]

/-- C9 witness: allocating a placeholder for node 3 of the demo pool, then
asking again, returns the same placeholder (the node published under id 7);
`getTseitinVar` on node 5 (no placeholder) yields TRUE. -/
theorem claim9_witness :
    ((demoPool.createTseitinVar 3).1.createTseitinVar 3 = demoPool.createTseitinVar 3)
    ∧ lookupKV demoPool.tseitinVars 3 = none
    ∧ lookupKV (demoPool.createTseitinVar 3).1.tseitinVars 3
        = some (demoPool.createTseitinVar 3).2
    ∧ lookupKV (demoPool.createTseitinVar 3).1.tseitinVarToFormula
        (demoPool.createTseitinVar 3).2 = some 3
    ∧ (demoPool.getTseitinVar 5).1 = demoPool
    ∧ (demoPool.getTseitinVar 5).2 = 1 := by
  have h2 := claim9_tseitin_bookkeeping.2.1 demoPool 3 (by decide) (by decide)
  exact ⟨claim9_tseitin_bookkeeping.1 demoPool 3, by decide, h2.1, h2.2,
    claim9_tseitin_bookkeeping.2.2.1 demoPool 5,
    claim9_tseitin_bookkeeping.2.2.2.2 demoPool 5 (by decide)⟩

/-! Section: XOR multiset construction (FormulaPool::create(const FormulasMulti&)) -/

/-- Whether the node at `i` is an XOR application. -/
def FPool.isXorAt (p : FPool) (i : Nat) : Bool :=
  match p.contentOf i with
  | some (.fnary .nxor _) => true
  | _ => false

/-- The operand list of an n-ary node (used when flattening nested XOR). -/
def FPool.xorSubs (p : FPool) (i : Nat) : List Nat :=
  match p.contentOf i with
  | some (.fnary _ s) => s
  | _ => []

/-- Modelled from the spec (§4.2 XOR; `FormulaPool::createNAry` lives in the
missing `FormulaPool.tpp`): single pass over the id-sorted operand set —
nested XOR operands are flattened into the smaller-id region, an operand
immediately followed by its negation is erased pairwise with TRUE spliced in. -/
def FPool.xorLoop (p : FPool) : List Nat → List Nat → List Nat
  | processed, [] => processed
  | processed, x :: rest =>
    if p.isXorAt x then p.xorLoop (insertAll (p.xorSubs x) processed) rest
    else
      match rest with
      | [] => processed ++ [x]
      | y :: rest' =>
        if y = p.negIdOf x then p.xorLoop (insertS 1 processed) rest'
        else p.xorLoop (processed ++ [x]) (y :: rest')

/-- Modelled from the spec (§4.2 XOR): the n-ary XOR constructor — an empty
result is FALSE, a singleton result is that operand unwrapped, anything else
is interned. -/
def FPool.createNAryXor (p : FPool) (l : List Nat) : FPool × Nat :=
  match p.xorLoop [] (sortDedup l) with
  | [] => (p, 2)
  | [a] => (p, a)
  | s => p.add (.fnary .nxor s)

/-- The run-length parity scan of `FormulaPool::create(const FormulasMulti&)`
(the `lastSubFormula`/`counter` loop): walk the sorted multiset, keeping one
copy of each element whose run has odd length. -/
def oddLoop : Nat → Nat → List Nat → List Nat
  | last, counter, [] => if counter % 2 = 1 then [last] else []
  | last, counter, x :: rest =>
    if x = last then oddLoop last (counter + 1) rest
    else (if counter % 2 = 1 then [last] else []) ++ oddLoop x 1 rest

/-- `FormulaPool::create(const FormulasMulti& _subformulas)`: an empty multiset
is FALSE; a singleton is returned unwrapped; otherwise structurally equal
elements cancel pairwise and the surviving odd-multiplicity elements are
handed to the XOR constructor. -/
def FPool.createMulti (p : FPool) (l : List Nat) : FPool × Nat :=
  match l with
  | [] => (p, 2)
  | [a] => (p, a)
  | a :: rest => p.createNAryXor (oddLoop a 1 rest)

theorem oddLoop_count (x : Nat) : ∀ (rest : List Nat) (last counter : Nat),
    List.Chain' (· ≤ ·) (last :: rest) →
    List.count x (oddLoop last counter rest) =
      (if x = last then (if (counter + List.count x rest) % 2 = 1 then 1 else 0)
       else (if List.count x rest % 2 = 1 then 1 else 0)) := by
  intro rest
  induction rest with
  | nil =>
    intro last counter _
    by_cases hx : x = last
    · subst hx
      simp [oddLoop]
      by_cases hc : counter % 2 = 1 <;> simp [hc]
    · simp [oddLoop, hx]
      by_cases hc : counter % 2 = 1 <;> simp [hc, hx]
  | cons y rs ih =>
    intro last counter hch
    by_cases hy : y = last
    · subst hy
      rw [show oddLoop y counter (y :: rs) = oddLoop y (counter + 1) rs by
        rw [oddLoop.eq_def]
        simp]
      rw [ih y (counter + 1) hch.tail]
      by_cases hx : x = y
      · subst hx
        rw [List.count_cons_self]
        rw [show counter + 1 + List.count x rs = counter + (List.count x rs + 1) from by omega]
        simp
      · simp only [if_neg hx]
        rw [List.count_cons_of_ne hx]
    · have hle : last ≤ y := List.chain'_cons.mp hch |>.1
      have hlt : last < y := lt_of_le_of_ne hle (fun h => hy h.symm)
      have hpw : List.Pairwise (· ≤ ·) (last :: y :: rs) :=
        List.chain'_iff_pairwise.mp hch
      have hcount0 : List.count last (y :: rs) = 0 := by
        refine List.count_eq_zero_of_not_mem ?_
        intro hmem
        have := (List.pairwise_cons.mp (List.pairwise_cons.mp hpw).2).1
        rcases List.mem_cons.mp hmem with h | h
        · omega
        · have := this last h
          omega
      rw [show oddLoop last counter (y :: rs) =
          (if counter % 2 = 1 then [last] else []) ++ oddLoop y 1 rs by
        rw [oddLoop.eq_def]
        simp [hy]]
      rw [List.count_append, ih y 1 hch.tail]
      by_cases hx : x = last
      · subst hx
        have hxy : x ≠ y := by omega
        simp only [if_pos rfl, if_neg hxy]
        have hcrs : List.count x rs = 0 := by
          rw [List.count_cons_of_ne hxy] at hcount0
          exact hcount0
        rw [hcount0, hcrs]
        by_cases hc : counter % 2 = 1
        · simp [hc]
        · simp [hc]
      · simp only [if_neg hx]
        have h1 : List.count x (if counter % 2 = 1 then [last] else []) = 0 := by
          by_cases hc : counter % 2 = 1 <;> simp [hc, hx]
        rw [h1]
        by_cases hxy : x = y
        · subst hxy
          rw [List.count_cons_self]
          rw [show (1 : Nat) + List.count x rs = List.count x rs + 1 from by omega]
          simp
        · simp only [if_neg hxy]
          rw [List.count_cons_of_ne hxy]
          omega

/-- C7: XOR multiset parity.  The multiset constructor keeps exactly the
odd-multiplicity elements (each once) and feeds them to the XOR constructor:
`XOR(a,a) == FALSE`, `XOR(a,a,a) == a` (provided `a` is not itself an XOR
node, which would be flattened and re-interned), `XOR(a,b,b,c,c,c)` is the
very same construction as `XOR(a,c)`, the empty multiset yields FALSE, and a
singleton is returned unwrapped. -/
theorem claim7_xor_multiset_parity :
    (∀ (p : FPool) (a : Nat) (rest : List Nat) (x : Nat),
      List.Chain' (· ≤ ·) (a :: rest) →
      List.count x (oddLoop a 1 rest) =
        (if List.count x (a :: rest) % 2 = 1 then 1 else 0))
    ∧ (∀ (p : FPool) (a : Nat), p.createMulti [a, a] = (p, 2))
    ∧ (∀ (p : FPool) (a : Nat), p.isXorAt a = false →
      p.createMulti [a, a, a] = (p, a))
    ∧ (∀ (p : FPool) (a b c : Nat), a < b → b < c →
      p.createMulti [a, b, b, c, c, c] = p.createMulti [a, c])
    ∧ (∀ (p : FPool), p.createMulti [] = (p, 2))
    ∧ (∀ (p : FPool) (a : Nat), p.createMulti [a] = (p, a)) := by
  refine ⟨?_, ?_, ?_, ?_, ?_, ?_⟩
  · intro p a rest x hch
    rw [oddLoop_count x rest a 1 hch]
    by_cases hx : x = a
    · subst hx
      rw [List.count_cons_self]
      rw [show 1 + List.count x rest = List.count x rest + 1 from by omega]
      simp
    · rw [if_neg hx, List.count_cons_of_ne hx]
  · intro p a
    show p.createNAryXor (oddLoop a 1 [a]) = (p, 2)
    rw [show oddLoop a 1 [a] = [] by simp [oddLoop]]
    rfl
  · intro p a hxor
    show p.createNAryXor (oddLoop a 1 [a, a]) = (p, a)
    rw [show oddLoop a 1 [a, a] = [a] by simp [oddLoop]]
    unfold FPool.createNAryXor
    rw [show sortDedup [a] = [a] from rfl]
    rw [show p.xorLoop [] [a] = [a] by
      rw [FPool.xorLoop.eq_def]
      simp [hxor]]
  · intro p a b c hab hbc
    have hoL : oddLoop a 1 [b, b, c, c, c] = [a, c] := by
      have h1 : ¬ (b = a) := by omega
      have h2 : ¬ (c = b) := by omega
      have h3 : ¬ (c = a) := by omega
      simp [oddLoop, h1, h2, h3]
    have hoR : oddLoop a 1 [c] = [a, c] := by
      have h3 : ¬ (c = a) := by omega
      simp [oddLoop, h3]
    show p.createNAryXor (oddLoop a 1 [b, b, c, c, c]) =
      p.createNAryXor (oddLoop a 1 [c])
    rw [hoL, hoR]
  · intro p
    rfl
  · intro p a
    rfl

/-- C7 witness: the parity computation and the examples at the demo pool, with
the Boolean atom 3 and the constraint atoms 5 and 6. -/
theorem claim7_witness :
    List.Chain' (· ≤ ·) ([3, 5, 5, 6] : List Nat)
    ∧ List.count 5 (oddLoop 3 1 [5, 5, 6]) = 0
    ∧ demoPool.createMulti [3, 3] = (demoPool, 2)
    ∧ demoPool.isXorAt 3 = false
    ∧ demoPool.createMulti [3, 3, 3] = (demoPool, 3)
    ∧ demoPool.createMulti [3, 5, 5, 6, 6, 6] = demoPool.createMulti [3, 6]
    ∧ demoPool.createMulti [] = (demoPool, 2)
    ∧ demoPool.createMulti [5] = (demoPool, 5) := by
  have hch : List.Chain' (· ≤ ·) ([3, 5, 5, 6] : List Nat) := by
    simp [List.chain'_cons]
  refine ⟨hch, ?_, claim7_xor_multiset_parity.2.1 demoPool 3,
    by decide, claim7_xor_multiset_parity.2.2.1 demoPool 3 (by decide),
    claim7_xor_multiset_parity.2.2.2.1 demoPool 3 5 6 (by decide) (by decide),
    claim7_xor_multiset_parity.2.2.2.2.1 demoPool,
    claim7_xor_multiset_parity.2.2.2.2.2 demoPool 5⟩
  rw [claim7_xor_multiset_parity.1 demoPool 3 [5, 5, 6] 5 hch]
  decide

/-! Section: Release / deletion lifecycle -/

/-- `n` handle registrations in a row. -/
def FPool.regN (p : FPool) (i : Nat) : Nat → FPool
  | 0 => p
  | Nat.succ m => (p.reg i).regN i m

/-- `n` handle releases in a row. -/
def FPool.freeN (p : FPool) (i : Nat) : Nat → FPool
  | 0 => p
  | Nat.succ m => (p.free i).freeN i m

theorem map_setU_id (A : List FNode) (k : Nat) (f : Nat → Nat)
    (h : ∀ n ∈ A, n.id ≠ k) :
    A.map (fun n => if n.id = k then
      ⟨n.id, n.content, n.negId, f n.usages, n.difficulty⟩ else n) = A := by
  induction A with
  | nil => rfl
  | cons a A ih =>
    rw [List.map_cons, if_neg (h a (List.mem_cons_self a A)),
      ih (fun n hn => h n (List.mem_cons_of_mem a hn))]

theorem find?_id_none_of_ne (l : List FNode) (j : Nat) (h : ∀ n ∈ l, n.id ≠ j) :
    l.find? (fun n => decide (n.id = j)) = none :=
  List.find?_eq_none.mpr (fun n hn => by simpa using h n hn)

/-- A pool in which the Boolean formula 3 (usage count 1: only the internal
negation-handle use remains) is pinned by the Tseitin mapping `3 ↦ 5`, and the
placeholder 5 still has one client handle (usage count 2). -/
def tseitinDemoPool : FPool :=
  ⟨7, [⟨1, .ftrue, 2, 1, 0⟩, ⟨2, .ffalse, 1, 1, 0⟩,
       ⟨3, .fbool 0, 4, 1, 0⟩, ⟨4, .fnot 3, 3, 0, 0⟩,
       ⟨5, .fbool 1, 6, 2, 0⟩, ⟨6, .fnot 5, 5, 0, 0⟩],
    [1, 2, 3, 5], [(3, 5)], [(5, 3)], 2⟩

/-- The same pool one step earlier: formula 3 still holds one client handle
(usage count 2) besides the internal one. -/
def tseitinDemoPool2 : FPool :=
  ⟨7, [⟨1, .ftrue, 2, 1, 0⟩, ⟨2, .ffalse, 1, 1, 0⟩,
       ⟨3, .fbool 0, 4, 2, 0⟩, ⟨4, .fnot 3, 3, 0, 0⟩,
       ⟨5, .fbool 1, 6, 2, 0⟩, ⟨6, .fnot 5, 5, 0, 0⟩],
    [1, 2, 3, 5], [(3, 5)], [(5, 3)], 2⟩

/-- C8: release/deletion lifecycle.
1. When the decremented counter misses the deletion threshold, `free` is a
   pure decrement of the base formula's counter.
2. Publishing a fresh Boolean-variable formula, taking `n ≥ 1` handles on it
   and releasing all `n` leaves the pool without the node or its negation:
   both objects are gone and the lookup-table entry is removed.
3. If the formula still has a Tseitin placeholder that is in use, `free`
   decrements but keeps the pair alive.
4. Once the placeholder itself is released (which removes both map entries),
   the formula pair and the placeholder pair are deleted together
   (demonstrated on a concrete pool below). -/
theorem claim8_release_lifecycle :
    (∀ (p : FPool) (i : Nat) (n : FNode),
      p.findNode (p.getBaseFormula i) = some n → n.usages ≠ 2 →
      (p.free i).usagesOf (p.getBaseFormula i) = n.usages - 1)
    ∧ (∀ (p : FPool) (v num : Nat), p.Inv → p.nextVar ≤ v → 1 ≤ num →
      (((p.add (.fbool v)).1.regN (p.add (.fbool v)).2 num).freeN
          (p.add (.fbool v)).2 num).findNode p.idAllocator = none
      ∧ (((p.add (.fbool v)).1.regN (p.add (.fbool v)).2 num).freeN
          (p.add (.fbool v)).2 num).findNode (p.idAllocator + 1) = none
      ∧ p.idAllocator ∉ (((p.add (.fbool v)).1.regN (p.add (.fbool v)).2 num).freeN
          (p.add (.fbool v)).2 num).pool)
    ∧ (∀ (p : FPool) (k vt : Nat) (n : FNode),
      p.getBaseFormula k = k → p.findNode k = some n → n.usages = 2 →
      lookupKV p.tseitinVars k = some vt → vt ≠ k → p.usagesOf vt ≠ 1 →
      lookupKV p.tseitinVars n.negId = none →
      lookupKV p.tseitinVarToFormula n.negId = none →
      p.free k = p.setUsages k (· - 1)
      ∧ (p.free k).findNode k = some ⟨k, n.content, n.negId, 1, n.difficulty⟩)
    ∧ ((tseitinDemoPool.free 5).findNode 3 = none
      ∧ (tseitinDemoPool.free 5).findNode 4 = none
      ∧ (tseitinDemoPool.free 5).findNode 5 = none
      ∧ (tseitinDemoPool.free 5).pool = [1, 2]
      ∧ (tseitinDemoPool.free 5).tseitinVars = []
      ∧ (tseitinDemoPool.free 5).tseitinVarToFormula = []) := by
  refine ⟨?_, ?_, ?_, by decide⟩
  · intro p i n hf hu
    have hne : p.usagesOf (p.getBaseFormula i) ≠ 2 := by
      unfold FPool.usagesOf
      rw [hf]
      exact hu
    rw [free_no_delete p i hne, usagesOf_setUsages_same p _ _ hf]
  · intro p v num hInv hv hnum
    obtain ⟨hAl, hNd, hBd, _, _, _, _, hPoolSub, _, _, hTs, hTsR, hBv⟩ := hInv
    set k := p.idAllocator with hk
    have hidsmall : ∀ n ∈ p.nodes, n.id < k := fun n hn => (hBd n hn).2.1
    have hpoolsmall : ∀ i ∈ p.pool, i < k := by
      intro i hi
      obtain ⟨n, hn, rfl⟩ := hPoolSub i hi
      exact hidsmall n hn
    have hlkc : p.lookupContent (.fbool v) = none := by
      refine List.find?_eq_none.mpr (fun n hn => ?_)
      simp only [Bool.and_eq_true, decide_eq_true_eq, not_and]
      intro _ hc
      have := lt_of_boolVarOK (hBv n hn) hc
      omega
    set S : Nat → FPool := fun u => ⟨k + 2,
      p.nodes ++ [⟨k, .fbool v, k + 1, u, 0⟩, ⟨k + 1, .fnot k, k, 0, 0⟩],
      p.pool ++ [k], p.tseitinVars, p.tseitinVarToFormula, p.nextVar⟩ with hS
    have h0 : p.add (.fbool v) = (S 1, k) := add_eq_new p _ hlkc
    have hfindS : ∀ u, (S u).findNode k = some ⟨k, .fbool v, k + 1, u, 0⟩ := by
      intro u
      show (p.nodes ++ ([⟨k, FContent.fbool v, k + 1, u, 0⟩,
          ⟨k + 1, FContent.fnot k, k, 0, 0⟩] : List FNode)).find?
        (fun n => decide (n.id = k)) = some ⟨k, FContent.fbool v, k + 1, u, 0⟩
      rw [List.find?_append, find?_id_none_of_ne p.nodes k
        (fun n hn => by have := hidsmall n hn; omega)]
      simp [List.find?]
    have hfindSn : ∀ u, (S u).findNode (k + 1) = some ⟨k + 1, .fnot k, k, 0, 0⟩ := by
      intro u
      show (p.nodes ++ ([⟨k, FContent.fbool v, k + 1, u, 0⟩,
          ⟨k + 1, FContent.fnot k, k, 0, 0⟩] : List FNode)).find?
        (fun n => decide (n.id = k + 1)) = some ⟨k + 1, FContent.fnot k, k, 0, 0⟩
      rw [List.find?_append, find?_id_none_of_ne p.nodes (k + 1)
        (fun n hn => by have := hidsmall n hn; omega)]
      have hne : ¬ (k = k + 1) := by omega
      simp [List.find?, hne]
    have hbaseS : ∀ u, (S u).getBaseFormula k = k := by
      intro u
      unfold FPool.getBaseFormula
      rw [hfindS u]
      rfl
    have husS : ∀ u, (S u).usagesOf k = u := by
      intro u
      unfold FPool.usagesOf
      rw [hfindS u]
    have hconS : ∀ u, (S u).isConstraintAt k = false := by
      intro u
      unfold FPool.isConstraintAt FPool.contentOf
      rw [hfindS u]
      rfl
    have hngS : ∀ u, (S u).negIdOf k = k + 1 := by
      intro u
      unfold FPool.negIdOf
      rw [hfindS u]
    have hkne : ¬ (k + 1 = k) := by omega
    have hsetS : ∀ u f, (S u).setUsages k f = S (f u) := by
      intro u f
      unfold FPool.setUsages
      have hnodes : ((S u).nodes).map (fun n => if n.id = k then
          (⟨n.id, n.content, n.negId, f n.usages, n.difficulty⟩ : FNode) else n)
          = (S (f u)).nodes := by
        show (p.nodes ++ ([⟨k, FContent.fbool v, k + 1, u, 0⟩,
            ⟨k + 1, FContent.fnot k, k, 0, 0⟩] : List FNode)).map (fun n => if n.id = k then
            (⟨n.id, n.content, n.negId, f n.usages, n.difficulty⟩ : FNode) else n)
          = p.nodes ++ ([⟨k, FContent.fbool v, k + 1, f u, 0⟩,
            ⟨k + 1, FContent.fnot k, k, 0, 0⟩] : List FNode)
        rw [List.map_append, map_setU_id p.nodes k f
          (fun n hn => by have := hidsmall n hn; omega)]
        simp [hkne]
      rw [hnodes]
    have hregS : ∀ u, (S u).reg k = S (u + 1) := by
      intro u
      simp only [FPool.reg]
      rw [hbaseS u, hsetS u, hconS u, Bool.and_false]
      simp
    have hfreeS_high : ∀ u, 3 ≤ u → (S u).free k = S (u - 1) := by
      intro u hu
      have hne : (S u).usagesOf ((S u).getBaseFormula k) ≠ 2 := by
        rw [hbaseS u, husS u]
        omega
      rw [free_no_delete (S u) k hne, hbaseS u, hsetS u]
    have hlkTs : ∀ u j, k ≤ j → lookupKV (S u).tseitinVars j = none := by
      intro u j hj
      show lookupKV p.tseitinVars j = none
      refine lookupKV_none_of_bound (fun kv hkv => ?_)
      have := (hTs kv hkv).1
      omega
    have hlkTsR : ∀ u j, k ≤ j → lookupKV (S u).tseitinVarToFormula j = none := by
      intro u j hj
      show lookupKV p.tseitinVarToFormula j = none
      refine lookupKV_none_of_bound (fun kv hkv => ?_)
      have := hTsR kv hkv
      omega
    have hftv : ∀ u j, k ≤ j → (S u).freeTseitinVariable j = (false, S u) := by
      intro u j hj
      unfold FPool.freeTseitinVariable
      rw [hlkTs u j hj, hlkTsR u j hj]
    set D : FPool := ⟨k + 2, p.nodes, p.pool,
      p.tseitinVars, p.tseitinVarToFormula, p.nextVar⟩ with hD
    have hfreeS2 : (S 2).free k = D := by
      simp only [FPool.free]
      rw [hbaseS 2, hsetS 2]
      rw [if_pos (by rw [husS 1])]
      rw [hftv 1 k (le_refl k)]
      rw [hngS 1]
      rw [hftv 1 (k + 1) (by omega)]
      simp only [Bool.or_false, Bool.not_false, if_pos]
      unfold FPool.deletePair
      rw [hngS 1]
      show (⟨k + 2,
        (p.nodes ++ ([⟨k, FContent.fbool v, k + 1, 1, 0⟩,
          ⟨k + 1, FContent.fnot k, k, 0, 0⟩] : List FNode)).filter
          (fun n => !(n.id = k : Bool) && !(n.id = k + 1 : Bool)),
        (p.pool ++ [k]).erase k,
        p.tseitinVars, p.tseitinVarToFormula, p.nextVar⟩ : FPool) = D
      rw [List.filter_append, List.filter_eq_self.mpr (fun n hn => by
        have := hidsmall n hn
        simp
        omega)]
      rw [show ([⟨k, FContent.fbool v, k + 1, 1, 0⟩,
          ⟨k + 1, FContent.fnot k, k, 0, 0⟩] : List FNode).filter
          (fun n => !(n.id = k : Bool) && !(n.id = k + 1 : Bool)) = [] by
        simp [List.filter, hkne]]
      rw [List.erase_append_right _ (fun hmem => by
        have := hpoolsmall k hmem
        omega)]
      rw [List.erase_cons_head]
      rw [show p.pool ++ ([] : List Nat) = p.pool from List.append_nil p.pool]
      rw [show p.nodes ++ ([] : List FNode) = p.nodes from List.append_nil p.nodes]
    have hregN : ∀ m u, (S u).regN k m = S (u + m) := by
      intro m
      induction m with
      | zero => intro u; rfl
      | succ mm ih =>
        intro u
        show ((S u).reg k).regN k mm = S (u + (mm + 1))
        rw [hregS u, ih (u + 1)]
        congr 1
        omega
    have hfreeN : ∀ m, 1 ≤ m → (S (1 + m)).freeN k m = D := by
      intro m
      induction m with
      | zero => intro h; omega
      | succ mm ih =>
        intro _
        show ((S (1 + (mm + 1))).free k).freeN k mm = D
        cases Nat.eq_zero_or_pos mm with
        | inl h0 =>
          subst h0
          rw [show (1 + 1 : Nat) = 2 from rfl, hfreeS2]
          rfl
        | inr hpos =>
          rw [hfreeS_high (1 + (mm + 1)) (by omega)]
          rw [show 1 + (mm + 1) - 1 = 1 + mm from by omega]
          exact ih hpos
    rw [h0]
    show (((S 1).regN k num).freeN k num).findNode k = none
      ∧ (((S 1).regN k num).freeN k num).findNode (k + 1) = none
      ∧ k ∉ (((S 1).regN k num).freeN k num).pool
    rw [hregN num 1, hfreeN num hnum]
    refine ⟨?_, ?_, ?_⟩
    · show p.nodes.find? (fun n => decide (n.id = k)) = none
      exact find?_id_none_of_ne p.nodes k (fun n hn => by have := hidsmall n hn; omega)
    · show p.nodes.find? (fun n => decide (n.id = k + 1)) = none
      exact find?_id_none_of_ne p.nodes (k + 1) (fun n hn => by have := hidsmall n hn; omega)
    · show k ∉ p.pool
      intro hmem
      have := hpoolsmall k hmem
      omega
  · intro p k vt n hbase hf hu htv hvtk hvu hng hngr
    have hp1f : (p.setUsages k (· - 1)).findNode k =
        some ⟨k, n.content, n.negId, n.usages - 1, n.difficulty⟩ := by
      rw [findNode_setUsages, hf]
      have hid : n.id = k := (findNode_mem hf).2
      simp [hid]
    have hftv1 : (p.setUsages k (· - 1)).freeTseitinVariable k
        = (true, p.setUsages k (· - 1)) := by
      unfold FPool.freeTseitinVariable
      rw [show (p.setUsages k (· - 1)).tseitinVars = p.tseitinVars from rfl, htv]
      dsimp only
      rw [if_neg (by
        rw [usagesOf_setUsages_other p k vt _ hvtk]
        exact hvu)]
    have hngOf : (p.setUsages k (· - 1)).negIdOf k = n.negId := by
      unfold FPool.negIdOf
      rw [hp1f]
    have hftv2 : (p.setUsages k (· - 1)).freeTseitinVariable n.negId =
        (false, p.setUsages k (· - 1)) := by
      unfold FPool.freeTseitinVariable
      rw [show (p.setUsages k (· - 1)).tseitinVars = p.tseitinVars from rfl, hng]
      dsimp only
      rw [show (p.setUsages k (· - 1)).tseitinVarToFormula
        = p.tseitinVarToFormula from rfl, hngr]
    have hfree : p.free k = p.setUsages k (· - 1) := by
      simp only [FPool.free]
      rw [hbase]
      rw [if_pos (by
        rw [usagesOf_setUsages_same p k _ hf]
        show n.usages - 1 = 1
        rw [hu])]
      rw [hftv1]
      dsimp only
      rw [hngOf, hftv2]
      dsimp only
      simp
    refine ⟨hfree, ?_⟩
    rw [hfree, hp1f, hu]

/-- C8 witness: freeing the single handle of node 3 leaves its counter at 0
without deletion; publishing a fresh Boolean formula, registering twice and
freeing twice removes it from the pool; with a pinned Tseitin placeholder the
release only decrements. -/
theorem claim8_witness :
    ((demoPool.free 3).usagesOf (demoPool.getBaseFormula 3) = 0)
    ∧ ((((demoPool.add (.fbool 1)).1.regN (demoPool.add (.fbool 1)).2 2).freeN
        (demoPool.add (.fbool 1)).2 2).findNode demoPool.idAllocator = none)
    ∧ (tseitinDemoPool2.free 3 = tseitinDemoPool2.setUsages 3 (· - 1)) := by
  refine ⟨?_, ?_, ?_⟩
  · exact claim8_release_lifecycle.1 demoPool 3 ⟨3, .fbool 0, 4, 1, 0⟩
      (by decide) (by decide)
  · exact (claim8_release_lifecycle.2.1 demoPool 1 2 (by decide) (by decide)
      (by decide)).1
  · exact (claim8_release_lifecycle.2.2.1 tseitinDemoPool2 3 5 ⟨3, .fbool 0, 4, 2, 0⟩
      (by decide) (by decide) (by decide) (by decide) (by decide) (by decide)
      (by decide) (by decide)).1

end CarlSpec
